import Mathlib

/-!
The release-job-migrator: a shallow embedding and its properties.

The definitions below embed `cmd/release-job-migrator/main.go`.

Go strings are embedded as lists of Unicode code points (`GoString`); the
strings the program handles come out of YAML documents and are valid UTF-8,
and a valid UTF-8 string occurs in another at code-point boundaries only, so
byte-level and code-point-level splitting and replacing agree.  Go maps are
embedded as association lists (`GoMap`); the order in which a `range`
statement visits a map is not fixed by the language and is a parameter
(`Externals.rangeOrder`), as are the functions of other packages whose source
is not at hand.  The file system is a parameter too (`World`): what the
directory walks and reads give, and which writes fail.  `run` returns the
writes it makes, in order, and how it ends: with its report, with an error,
or with a run-time panic.
-/

namespace ReleaseJobMigrator

/-- A Go string: a sequence of code points. -/
abbrev GoString := List Char

/-! ## Go standard library functions used by the program -/

/-- Embeds `strings.Split(s, sep)` for a one-character separator: the pieces of
`s` between occurrences of `sep`; the empty string gives one empty piece. -/
def stringsSplit (sep : Char) : GoString → List GoString
  | [] => [[]]
  | c :: cs =>
    if c = sep then [] :: stringsSplit sep cs
    else
      match stringsSplit sep cs with
      | [] => [[c]]
      | piece :: pieces => (c :: piece) :: pieces

/-- Embeds `strings.Join(elems, sep)`. -/
def stringsJoin (sep : GoString) : List GoString → GoString
  | [] => []
  | [e] => e
  | e :: es => e ++ sep ++ stringsJoin sep es

/-- Embeds `strings.HasPrefix(s, p)`. -/
def stringsStartsWith (s p : GoString) : Bool :=
  p.isPrefixOf s

/-- One element of a regular expression: a literal character, `.` (any
character but a newline) or `\d` (an ASCII digit). -/
inductive RegexAtom where
  | lit (c : Char)
  | anyChar
  | digit
  deriving DecidableEq, Repr

/-- Whether one character matches one element of a regular expression. -/
def RegexAtom.accepts : RegexAtom → Char → Bool
  | .lit c, d => d = c
  | .anyChar, d => d ≠ '\n'
  | .digit, d => d.isDigit

/-- Whether a sequence of atoms matches at the start of the string. -/
def regexMatchHere : List RegexAtom → GoString → Bool
  | [], _ => true
  | _ :: _, [] => false
  | a :: as, c :: cs => a.accepts c && regexMatchHere as cs

/-- Embeds `(*Regexp).MatchString` for a pattern that is a sequence of atoms:
the pattern is searched for at every position (it is not anchored). -/
def regexMatchString (re : List RegexAtom) : GoString → Bool
  | [] => regexMatchHere re []
  | c :: cs => regexMatchHere re (c :: cs) || regexMatchString re cs

/-- Embeds the Go slice expression `xs[lo:hi]` (for `lo ≤ hi ≤ len(xs)`). -/
def goSlice {α : Type} (xs : List α) (lo hi : Nat) : List α :=
  (xs.take hi).drop lo

/-! ## Job identity -/

/-- The Go struct `jobInfo`. -/
structure jobInfo where
  As : GoString
  Product : GoString
  Version : GoString
  deriving DecidableEq, Repr

/-- The zero value `jobInfo{}`. -/
def jobInfo.zero : jobInfo := ⟨[], [], []⟩

/-- The pattern of `versionRegex`, written `4.\d` in the source. -/
def versionRegex : List RegexAtom :=
  [.lit '4', .anyChar, .digit]

/-- Embeds `getJobInfo`. -/
def getJobInfo (jobName : GoString) : jobInfo × Bool :=
  if !stringsStartsWith jobName "release-openshift-".toList then
    (jobInfo.zero, false)
  else
    let splitName := stringsSplit '-' jobName
    if splitName.length < 6 then
      (jobInfo.zero, false)
    else
      let version := splitName.getD (splitName.length - 1) []
      if !regexMatchString versionRegex version then
        (jobInfo.zero, false)
      else
        ({ As := stringsJoin "-".toList (goSlice splitName 4 (splitName.length - 1))
           Product := splitName.getD 2 []
           Version := splitName.getD (splitName.length - 1) [] }, true)

/-- The version pattern in the words of the specification: a digit, a literal
dot, then a single digit. -/
def specVersionPattern : GoString → Bool
  | [a, b, c] => a.isDigit && b = '.' && c.isDigit
  | _ => false

/-- The candidate test in the words of the specification: the fixed prefix, at
least 6 hyphen-delimited segments, and a trailing major.minor segment. -/
def specIsCandidate (jobName : GoString) : Bool :=
  let segments := stringsSplit '-' jobName
  stringsStartsWith jobName "release-openshift-".toList
    && decide (6 ≤ segments.length)
    && specVersionPattern (segments.getD (segments.length - 1) [])

/-- The name the specification says is reproduced: the hyphen-join of
`release-openshift`, the product, the literal `installer`, the test name and
the version. -/
def specRejoin (info : jobInfo) : GoString :=
  stringsJoin "-".toList
    ["release-openshift".toList, info.Product, "installer".toList, info.As, info.Version]

/-! ## Go maps -/

/-- A Go map with string keys: an association list with at most one entry per
key; `range` visits the entries in list order. -/
abbrev GoMap (V : Type) := List (GoString × V)

/-- The map read `v, ok := m[k]`. -/
def GoMap.lookup {V : Type} : GoMap V → GoString → Option V
  | [], _ => none
  | (k, v) :: rest, key => if k = key then some v else GoMap.lookup rest key

/-- The map write `m[k] = v`: an existing entry is overwritten in place, a new
key is added. -/
def GoMap.insert {V : Type} : GoMap V → GoString → V → GoMap V
  | [], key, val => [(key, val)]
  | (k, v) :: rest, key, val =>
    if k = key then (k, val) :: rest else (k, v) :: GoMap.insert rest key val

/-! ## Base images -/

/-- Modelled from the spec: `api.ImageStreamTagReference`, whose declaration
is not among the sources; the BaseImageReference `{name, namespace, tag,
alias}` of the data model, with the four fields `updateBaseImages` compares. -/
structure ImageStreamTagReference where
  Namespace : GoString
  Name : GoString
  Tag : GoString
  As : GoString
  deriving DecidableEq, Repr

/-- What went wrong inside a directory walk. -/
inductive WalkError where
  | walk (name : GoString)
  | readFile (name : GoString)
  | unmarshalFile (name : GoString)
  | writeFile (name : GoString)
  deriving DecidableEq, Repr

/-- The errors `run` returns, one constructor per `fmt.Errorf` site. -/
inductive RunError where
  | loadPeriodics (cause : WalkError)
  | readConfigFile
  | unmarshalConfigFile
  | loadCiopConfigs
  | noTarget (job : GoString)
  | unmarshalUnresolved (job : GoString)
  | noMultiStage (job : GoString)
  | imageConflict (name : GoString) (baseImage newImage : ImageStreamTagReference)
  | duplicateTest (job test : GoString)
  | writeConfig (filename : GoString)
  | writeJobConfig (filename : GoString)
  | processRC (cause : WalkError)
  deriving DecidableEq, Repr

/-- The defaulting at the top of the loop body of `updateBaseImages`: an empty
Namespace becomes `ocp`, an empty Name becomes the version. -/
def fillDefaults (newImage : ImageStreamTagReference) (version : GoString) :
    ImageStreamTagReference :=
  let newImage :=
    if newImage.Namespace = [] then { newImage with Namespace := "ocp".toList } else newImage
  if newImage.Name = [] then { newImage with Name := version } else newImage

/-- Embeds `updateBaseImages`.  The map `replacementImages` is updated in
place in the source; here the updated map is returned, together with the
error if there is one. -/
def updateBaseImages (newImages ciOpImages replacementImages : GoMap ImageStreamTagReference)
    (version : GoString) : GoMap ImageStreamTagReference × Option RunError :=
  match newImages with
  | [] => (replacementImages, none)
  | (name, newImage) :: rest =>
    let newImage := fillDefaults newImage version
    match (GoMap.lookup replacementImages name <|> GoMap.lookup ciOpImages name) with
    | some baseImage =>
      if baseImage.As ≠ newImage.As ∨ baseImage.Name ≠ newImage.Name
          ∨ baseImage.Namespace ≠ newImage.Namespace ∨ baseImage.Tag ≠ newImage.Tag then
        (replacementImages, some (.imageConflict name baseImage newImage))
      else
        updateBaseImages rest ciOpImages replacementImages version
    | none =>
      updateBaseImages rest ciOpImages (GoMap.insert replacementImages name newImage) version

/-! ## More of the Go standard library -/

/-- Embeds `strings.HasSuffix(s, suffix)`. -/
def stringsEndsWith (s suffix : GoString) : Bool :=
  suffix.isSuffixOf s

/-- Embeds `strings.TrimSuffix(s, suffix)`. -/
def stringsTrimSuffix (s suffix : GoString) : GoString :=
  if stringsEndsWith s suffix then s.take (s.length - suffix.length) else s

/-- The scan behind `strings.Split` for a separator of one or more characters:
`skip` counts the characters of a separator just found that are still to be
passed over. -/
def stringsSplitOnAux (sep : GoString) : Nat → GoString → List GoString
  | _, [] => [[]]
  | skip + 1, _ :: cs => stringsSplitOnAux sep skip cs
  | 0, c :: cs =>
    if sep.isPrefixOf (c :: cs) then [] :: stringsSplitOnAux sep (sep.length - 1) cs
    else
      match stringsSplitOnAux sep 0 cs with
      | [] => [[c]]
      | piece :: pieces => (c :: piece) :: pieces

/-- Embeds `strings.Split(s, sep)` for a non-empty separator string. -/
def stringsSplitOn (sep s : GoString) : List GoString :=
  stringsSplitOnAux sep 0 s

/-- The scan behind `ReplaceAll` for a non-empty `old`: occurrences are found
left to right and do not overlap; `skip` counts the characters of an
occurrence just replaced that are still to be passed over. -/
def replaceAllAux (old new : GoString) : Nat → GoString → GoString
  | _, [] => []
  | skip + 1, _ :: cs => replaceAllAux old new skip cs
  | 0, c :: cs =>
    if old.isPrefixOf (c :: cs) then new ++ replaceAllAux old new (old.length - 1) cs
    else c :: replaceAllAux old new 0 cs

/-- Embeds `strings.ReplaceAll(s, old, new)` and `bytes.ReplaceAll`: every
non-overlapping occurrence of `old` is replaced by `new`; an empty `old`
matches at the start and after every character. -/
def stringsReplaceAll (s old new : GoString) : GoString :=
  match old with
  | [] => new ++ s.flatMap (fun c => c :: new)
  | _ :: _ => replaceAllAux old new 0 s

/-! ## The data the program handles -/

/-- Modelled from the spec: `api.MultiStageTestConfiguration`, whose
declaration is not among the sources; the multi-stage step definition, an
ordered set of named steps that the migrator carries along without looking
inside. -/
structure MultiStageTestConfiguration where
  steps : List GoString
  deriving DecidableEq, Repr

/-- Modelled from the spec: `api.TestStepConfiguration`, whose declaration is
not among the sources; the three fields the migrator reads and writes. -/
structure TestStepConfiguration where
  As : GoString
  MultiStageTestConfiguration : Option MultiStageTestConfiguration
  Cron : Option GoString
  deriving DecidableEq, Repr

/-- Modelled from the spec: `api.Metadata`, whose declaration is not among the
sources. -/
structure Metadata where
  Org : GoString
  Repo : GoString
  Branch : GoString
  Variant : GoString
  deriving DecidableEq, Repr

/-- Modelled from the spec: `api.Candidate`, whose declaration is not among
the sources. -/
structure Candidate where
  Product : GoString
  Stream : GoString
  Version : GoString
  deriving DecidableEq, Repr

/-- Modelled from the spec: `api.ReleaseBuildConfiguration`, whose declaration
is not among the sources; the fields the migrator reads and writes.  A nil
`BaseImages` map is `none`; a release holds its candidate pointer; the resource
requests are kept as name and quantity. -/
structure ReleaseBuildConfiguration where
  BaseImages : Option (GoMap ImageStreamTagReference)
  Releases : GoMap (Option Candidate)
  Resources : GoMap (GoMap GoString)
  Tests : List TestStepConfiguration
  Metadata : Metadata
  deriving DecidableEq, Repr

/-- The zero value `api.ReleaseBuildConfiguration{}`. -/
def ReleaseBuildConfiguration.zero : ReleaseBuildConfiguration :=
  ⟨none, [], [], [], ⟨[], [], [], []⟩⟩

/-- Modelled from the spec: `configlib.DataWithInfo`, whose declaration is not
among the sources. -/
structure DataWithInfo where
  Configuration : ReleaseBuildConfiguration
  Info : Metadata
  deriving DecidableEq, Repr

/-- The Go struct `testConfig`. -/
structure testConfig where
  Steps : Option MultiStageTestConfiguration
  BaseImages : GoMap ImageStreamTagReference
  deriving DecidableEq, Repr

/-- The Go struct `GeneratorConfig`. -/
structure GeneratorConfig where
  Configs : GoMap testConfig
  deriving DecidableEq, Repr

/-- The Go struct `testsAndBaseImages`. -/
structure testsAndBaseImages where
  tests : List TestStepConfiguration
  baseImages : GoMap ImageStreamTagReference
  deriving DecidableEq, Repr

/-- An environment variable of a container. -/
structure EnvVar where
  Name : GoString
  Value : GoString
  deriving DecidableEq, Repr

/-- The parts of a container the migrator reads. -/
structure Container where
  Command : List GoString
  Args : List GoString
  Env : List EnvVar
  deriving DecidableEq, Repr

/-- The parts of a periodic job the migrator reads; a nil `Spec` is `none`,
otherwise `Spec` holds `Spec.Containers`. -/
structure Periodic where
  Name : GoString
  Cron : GoString
  Interval : GoString
  Spec : Option (List Container)
  deriving DecidableEq, Repr

/-- The part of `prowconfig.JobConfig` the migrator reads and writes. -/
structure JobConfig where
  Periodics : List Periodic
  deriving DecidableEq, Repr

/-- Embeds `metadataFromJobInfo`. -/
def metadataFromJobInfo (info : jobInfo) : Metadata :=
  { Org := "openshift".toList
    Repo := "release".toList
    Branch := "master".toList
    Variant := info.Product ++ "-".toList ++ info.Version }

/-- Functions of other packages the migrator calls, and the order in which a
`range` statement visits a map.  `rangeOrder V site ctx m` is the order in
which the `range` at `site`, reached in context `ctx`, visits the map `m`. -/
structure Externals where
  Basename : Metadata → GoString
  JobName : Metadata → GoString → GoString → GoString
  unmarshalConfig : GoString → Option ReleaseBuildConfiguration
  rangeOrder : (V : Type) → Nat → GoString → GoMap V → GoMap V

/-- Every `range` visits each entry of its map exactly once. -/
def Externals.RangesArePermutations (ext : Externals) : Prop :=
  ∀ (V : Type) (site : Nat) (ctx : GoString) (m : GoMap V),
    List.Perm (ext.rangeOrder V site ctx m) m

/-- Modelled from the spec: `jobconfig.PeriodicPrefix`, declared outside the
sources; new job names are prefixed for periodics. -/
def PeriodicPrefix : GoString := "periodic".toList

/-! ## The reconciliation loop -/

/-- How a run stops early: with a returned error, or with a run-time panic
(an index out of range, a nil dereference, a write to a nil map). -/
inductive Abort where
  | error (e : RunError)
  | panic
  deriving DecidableEq, Repr

/-- The three accumulators of `run`: `replacements`, `replacedJobs` and the
set `configlessTests`. -/
structure LoopState where
  replacements : GoMap testsAndBaseImages
  replacedJobs : GoMap GoString
  configlessTests : List GoString
  deriving DecidableEq, Repr

/-- Embeds `sets.String.Insert`. -/
def setInsert (s : List GoString) (x : GoString) : List GoString :=
  if x ∈ s then s else s ++ [x]

/-- The value `ciopConfigs[filename].Configuration`: the zero value when the
file is not in the map. -/
def ciopConfiguration (ciopConfigs : GoMap DataWithInfo) (filename : GoString) :
    ReleaseBuildConfiguration :=
  match GoMap.lookup ciopConfigs filename with
  | some d => d.Configuration
  | none => ReleaseBuildConfiguration.zero

/-- The value `replacements[filename]`: the zero value when the file is not in
the map. -/
def replacementRecord (replacements : GoMap testsAndBaseImages) (filename : GoString) :
    testsAndBaseImages :=
  match GoMap.lookup replacements filename with
  | some r => r
  | none => ⟨[], []⟩

/-- The lazy creation of the record of a target file: `replacements[filename]`
is set to a record with an empty base-image map unless it is there already. -/
def ensureRecord (st : LoopState) (filename : GoString) : LoopState :=
  if (GoMap.lookup st.replacements filename).isNone then
    { st with replacements := GoMap.insert st.replacements filename ⟨[], []⟩ }
  else st

/-- The loop `for name, value := range envs` that replaces every `$(name)` by
its value; `envs` is given in the order the loop visits it. -/
def substituteEnv (envs : GoMap GoString) (s : GoString) : GoString :=
  envs.foldl (fun acc e => stringsReplaceAll acc ("$(".toList ++ e.1 ++ ")".toList) e.2) s

/-- The loop over the arguments that finds the target; `none` is the panic of
`strings.Split(arg, "=")[1]` on an argument without `=`. -/
def extractTarget (ext : Externals) (jobName : GoString) (envs : GoMap GoString) :
    List GoString → GoString → Option GoString
  | [], target => some target
  | arg :: rest, target =>
    if (stringsSplit '=' arg).getD 0 [] = "--target".toList then
      match (stringsSplit '=' arg)[1]? with
      | none => none
      | some t =>
        extractTarget ext jobName envs rest
          (substituteEnv (ext.rangeOrder GoString 287 jobName envs) t)
    else extractTarget ext jobName envs rest target

/-- The loop over the tests of the embedded configuration: the steps of the
last test named like the target. -/
def selectSteps (tests : List TestStepConfiguration) (target : GoString) :
    Option MultiStageTestConfiguration :=
  tests.foldl (fun steps test => if test.As = target then test.MultiStageTestConfiguration
    else steps) none

/-- The end of the loop body of `run`, from the base-image merge on: merge the
base images, compute the schedule, check for a duplicate test name, append the
test and record the job-name mapping. -/
def reconcileJob (ext : Externals) (ciopConfigs : GoMap DataWithInfo) (st : LoopState)
    (periodic : Periodic) (info : jobInfo) (filename : GoString) (conf : testConfig) :
    LoopState × Option Abort :=
  let merged := updateBaseImages (ext.rangeOrder _ 185 periodic.Name conf.BaseImages)
    ((ciopConfiguration ciopConfigs filename).BaseImages.getD [])
    (replacementRecord st.replacements filename).baseImages info.Version
  let record := replacementRecord st.replacements filename
  let record := { record with baseImages := merged.1 }
  let st := { st with replacements := GoMap.insert st.replacements filename record }
  match merged.2 with
  | some err => (st, some (.error err))
  | none =>
    let cron := if periodic.Cron = [] then "@every ".toList ++ periodic.Interval
      else periodic.Cron
    let combinedTests := (replacementRecord st.replacements filename).tests
      ++ (ciopConfiguration ciopConfigs filename).Tests
    match combinedTests.find? (fun step => step.As = info.As) with
    | some step => (st, some (.error (.duplicateTest periodic.Name step.As)))
    | none =>
      let testsAndImages := replacementRecord st.replacements filename
      let test : TestStepConfiguration :=
        { As := info.As, MultiStageTestConfiguration := conf.Steps, Cron := some cron }
      let testsAndImages := { testsAndImages with tests := testsAndImages.tests ++ [test] }
      ({ st with
          replacements := GoMap.insert st.replacements filename testsAndImages
          replacedJobs := GoMap.insert st.replacedJobs periodic.Name
            (ext.JobName (metadataFromJobInfo info) PeriodicPrefix info.As) }, none)

/-- The body of the loop over the periodic jobs in `run`: the new state of the
accumulators and, if the run stops here, how. -/
def processPeriodic (ext : Externals) (generatorConfig : GeneratorConfig)
    (ciopConfigs : GoMap DataWithInfo) (st : LoopState) (periodic : Periodic) :
    LoopState × Option Abort :=
  let info := (getJobInfo periodic.Name).1
  if !(getJobInfo periodic.Name).2 then (st, none)
  else
    match periodic.Spec with
    | none => (st, some .panic)
    | some [] => (st, some .panic)
    | some (container :: _) =>
      match container.Command with
      | [] => (st, some .panic)
      | command :: _ =>
        if command ≠ "ci-operator".toList then (st, none)
        else
          let envs : GoMap GoString :=
            container.Env.foldl (fun m env => GoMap.insert m env.Name env.Value) []
          let isUnresolved := container.Env.any (fun env => env.Name = "UNRESOLVED_CONFIG".toList)
          let filename := ext.Basename (metadataFromJobInfo info)
          let st := ensureRecord st filename
          if isUnresolved then
            match extractTarget ext periodic.Name envs container.Args [] with
            | none => (st, some .panic)
            | some target =>
              if target = [] then (st, some (.error (.noTarget periodic.Name)))
              else
                let unresolvedConfig := substituteEnv (ext.rangeOrder GoString 297 periodic.Name envs)
                  ((GoMap.lookup envs "UNRESOLVED_CONFIG".toList).getD [])
                match ext.unmarshalConfig unresolvedConfig with
                | none => (st, some (.error (.unmarshalUnresolved periodic.Name)))
                | some unmarshaledConfig =>
                  match selectSteps unmarshaledConfig.Tests target with
                  | none => (st, some (.error (.noMultiStage periodic.Name)))
                  | some steps =>
                    reconcileJob ext ciopConfigs st periodic info filename ⟨some steps, []⟩
          else
            match GoMap.lookup generatorConfig.Configs info.As with
            | none => ({ st with configlessTests := setInsert st.configlessTests info.As }, none)
            | some conf => reconcileJob ext ciopConfigs st periodic info filename conf

/-- Runs a loop body over a list, stopping at the first abort. -/
def runLoop {α σ : Type} (body : σ → α → σ × Option Abort) : σ → List α → σ × Option Abort
  | st, [] => (st, none)
  | st, x :: xs =>
    match body st x with
    | (st1, some stop) => (st1, some stop)
    | (st1, none) => runLoop body st1 xs

/-- The two nested loops of `run` over the job files and their periodic jobs;
`jobs` is given in the order the outer loop visits it. -/
def reconcile (ext : Externals) (generatorConfig : GeneratorConfig)
    (ciopConfigs : GoMap DataWithInfo) (jobs : GoMap JobConfig) : LoopState × Option Abort :=
  runLoop (fun st (file : GoString × JobConfig) =>
      runLoop (processPeriodic ext generatorConfig ciopConfigs) st file.2.Periodics)
    ⟨[], [], []⟩ jobs

/-! ## The files and the three stores -/

/-- The three directories `run` writes to. -/
inductive Store where
  | ciopConfigDir
  | jobDir
  | rcConfigDir
  deriving DecidableEq, Repr

/-- What is handed to `yaml.Marshal` or written as raw bytes. -/
inductive Content where
  | config (c : ReleaseBuildConfiguration)
  | jobConfig (j : JobConfig)
  | raw (bytes : GoString)
  deriving DecidableEq, Repr

/-- One call of `ioutil.WriteFile`: the directory, the file name, what is
written and whether the call failed. -/
structure WriteOp where
  store : Store
  name : GoString
  content : Content
  failed : Bool
  deriving DecidableEq, Repr

/-- What reading and decoding a file gives. -/
inductive FileRead (α : Type) where
  | unreadable
  | malformed
  | ok (a : α)
  deriving DecidableEq, Repr

/-- One call of the callback of `filepath.Walk` over the job directory: the
path and base name, whether it is a directory, whether the walk reports an
error for it, and what reading and decoding it gives.  The contents of a
skipped directory are not visited and so are not listed. -/
structure JobDirEntry where
  Path : GoString
  Name : GoString
  IsDir : Bool
  walkErr : Bool
  file : FileRead JobConfig
  deriving DecidableEq, Repr

/-- One call of the callback of `filepath.Walk` over the release-controller
directory; `file` is `none` when the file cannot be read. -/
structure RcDirEntry where
  Path : GoString
  Name : GoString
  IsDir : Bool
  walkErr : Bool
  file : Option GoString
  deriving DecidableEq, Repr

/-- The file system as `run` meets it: the two directory walks, the generator
configuration file, the result of `configlib.LoadDataByFilename` (`none` for
an error) and which writes fail.  The release-controller directory is taken
to be distinct from the two directories written before it is walked. -/
structure World where
  jobDirBase : GoString
  jobDirWalk : List JobDirEntry
  configFile : FileRead GeneratorConfig
  ciopConfigs : Option (GoMap DataWithInfo)
  rcDirWalk : List RcDirEntry
  writeFails : Store → GoString → Bool

/-- The walk over the job directory at the start of `run`. -/
def loadJobs (jobDirBase : GoString) :
    List JobDirEntry → GoMap JobConfig → Except WalkError (GoMap JobConfig)
  | [], jobs => .ok jobs
  | entry :: rest, jobs =>
    if entry.walkErr then .error (.walk entry.Name)
    else if entry.IsDir && entry.Name ≠ jobDirBase then loadJobs jobDirBase rest jobs
    else if !stringsEndsWith entry.Path "-periodics.yaml".toList then
      loadJobs jobDirBase rest jobs
    else
      match entry.file with
      | .unreadable => .error (.readFile entry.Name)
      | .malformed => .error (.unmarshalFile entry.Name)
      | .ok periodics => loadJobs jobDirBase rest (GoMap.insert jobs entry.Name periodics)

/-- Modelled from the spec: the constants `api.ReleaseProductOCP`,
`api.ReleaseProductOKD`, `api.ReleaseStreamNightly`, `api.ReleaseStreamCI` and
`api.ReleaseStreamOKD`, declared outside the sources; the product, release
stream and namespace implied by each of the three fixed identifiers. -/
def productStreamNamespace (identifier : GoString) : GoString × GoString × GoString :=
  if identifier = "ocp".toList then ("ocp".toList, "nightly".toList, "ocp".toList)
  else if identifier = "origin".toList then ("ocp".toList, "ci".toList, "ocp".toList)
  else if identifier = "okd".toList then ("okd".toList, "okd".toList, "origin".toList)
  else ([], [], [])

/-- Embeds `newDataWithInfoFromFilename`; `none` is an index-out-of-range
panic. -/
def newDataWithInfoFromFilename (filename : GoString) : Option DataWithInfo :=
  match (stringsSplitOn "__".toList (stringsTrimSuffix filename ".yaml".toList))[1]? with
  | none => none
  | some variant =>
    let splitVariant := stringsSplit '-' variant
    let identifier := splitVariant.getD 0 []
    let psn := productStreamNamespace identifier
    match splitVariant[1]? with
    | none => none
    | some version =>
      let metadata : Metadata :=
        { Org := "openshift".toList, Repo := "release".toList, Branch := "master".toList
          Variant := variant }
      some
        { Info := metadata
          Configuration :=
            { BaseImages := some [("base".toList,
                { Name := version, Namespace := psn.2.2, Tag := "base".toList, As := [] })]
              Releases := [("latest".toList,
                some { Product := psn.1, Stream := psn.2.1, Version := version })]
              Resources := [("*".toList,
                [("cpu".toList, "100m".toList), ("memory".toList, "200Mi".toList)])]
              Tests := []
              Metadata := metadata } }

/-- The loop that adds the accumulated base images missing from the updated
configuration; the outer `none` is the panic of a write to a nil map. -/
def addBaseImages : Option (GoMap ImageStreamTagReference) → GoMap ImageStreamTagReference →
    Option (Option (GoMap ImageStreamTagReference))
  | images, [] => some images
  | none, _ :: _ => none
  | some images, (name, ist) :: rest =>
    if (GoMap.lookup images name).isNone then
      addBaseImages (some (GoMap.insert images name ist)) rest
    else addBaseImages (some images) rest

/-- The body of the loop of `run` over `replacements`: the write it makes and
how the run stops, if it does. -/
def writeConfig (ext : Externals) (w : World) (ciopConfigs : GoMap DataWithInfo)
    (log : List WriteOp) (entry : GoString × testsAndBaseImages) :
    List WriteOp × Option Abort :=
  let filename := entry.1
  let replacement := entry.2
  let existing :=
    match GoMap.lookup ciopConfigs filename with
    | some d => some d
    | none => newDataWithInfoFromFilename filename
  match existing with
  | none => (log, some .panic)
  | some d =>
    let updatedConfig := d.Configuration
    let updatedConfig := { updatedConfig with Tests := updatedConfig.Tests ++ replacement.tests }
    match addBaseImages updatedConfig.BaseImages
        (ext.rangeOrder _ 355 filename replacement.baseImages) with
    | none => (log, some .panic)
    | some images =>
      let updatedConfig := { updatedConfig with BaseImages := images }
      if w.writeFails .ciopConfigDir filename then
        (log ++ [⟨.ciopConfigDir, filename, .config updatedConfig, true⟩],
          some (.error (.writeConfig filename)))
      else (log ++ [⟨.ciopConfigDir, filename, .config updatedConfig, false⟩], none)

/-- The loop that remakes the periodic list of a job file without the
replaced jobs. -/
def prunePeriodics (replacedJobs : GoMap GoString) (periodics : List Periodic) :
    List Periodic :=
  periodics.foldl (fun kept job =>
    if (GoMap.lookup replacedJobs job.Name).isNone then kept ++ [job] else kept) []

/-- The body of the loop of `run` that deletes the old jobs. -/
def writeJobConfig (w : World) (replacedJobs : GoMap GoString) (log : List WriteOp)
    (entry : GoString × JobConfig) : List WriteOp × Option Abort :=
  let filename := entry.1
  let newConfig : JobConfig := ⟨prunePeriodics replacedJobs entry.2.Periodics⟩
  if w.writeFails .jobDir filename then
    (log ++ [⟨.jobDir, filename, .jobConfig newConfig, true⟩],
      some (.error (.writeJobConfig filename)))
  else (log ++ [⟨.jobDir, filename, .jobConfig newConfig, false⟩], none)

/-- The loop `for oldName, newName := range replacedJobs` over the bytes of a
release-controller file; `replacedJobs` is given in the order the loop visits
it. -/
def replaceJobNames (replacedJobs : GoMap GoString) (raw : GoString) : GoString :=
  replacedJobs.foldl (fun raw e => stringsReplaceAll raw e.1 e.2) raw

/-- The callback of the walk over the release-controller directory. -/
def rewriteRcFile (ext : Externals) (w : World) (replacedJobs : GoMap GoString)
    (log : List WriteOp) (entry : RcDirEntry) : List WriteOp × Option Abort :=
  if entry.walkErr then (log, some (.error (.processRC (.walk entry.Name))))
  else if entry.IsDir then (log, none)
  else
    match entry.file with
    | none => (log, some (.error (.processRC (.readFile entry.Name))))
    | some raw =>
      let raw := replaceJobNames (ext.rangeOrder _ 402 entry.Path replacedJobs) raw
      if w.writeFails .rcConfigDir entry.Path then
        (log ++ [⟨.rcConfigDir, entry.Path, .raw raw, true⟩],
          some (.error (.processRC (.writeFile entry.Name))))
      else (log ++ [⟨.rcConfigDir, entry.Path, .raw raw, false⟩], none)

/-- What `run` prints at the end: that nothing was detected, or the replaced
jobs sorted by old name together with the sorted config-less test names. -/
inductive Report where
  | noneDetected
  | summary (replaced : List (GoString × GoString)) (configless : List GoString)
  deriving DecidableEq, Repr

/-- The report at the end of `run`. -/
def makeReport (st : LoopState) : Report :=
  if st.replacedJobs.length = 0 ∧ st.configlessTests.length = 0 then .noneDetected
  else
    .summary
      (((st.replacedJobs.map Prod.fst).insertionSort (fun a b => a ≤ b)).map
        (fun oldName => (oldName, (GoMap.lookup st.replacedJobs oldName).getD [])))
      (st.configlessTests.insertionSort (fun a b => a ≤ b))

/-- How `run` ends. -/
inductive Outcome where
  | success (report : Report)
  | error (e : RunError)
  | panic
  deriving DecidableEq, Repr

/-- Turns an abort into the way the run ends. -/
def Abort.toOutcome : Abort → Outcome
  | .error e => .error e
  | .panic => .panic

/-- Embeds `run`: the calls of `ioutil.WriteFile` it makes, in order, and how
it ends.  `yaml.Marshal` of the values written is taken to succeed.  The
source also stores a synthesized configuration in `ciopConfigs`, which no later
step reads. -/
def run (ext : Externals) (w : World) : List WriteOp × Outcome :=
  match loadJobs w.jobDirBase w.jobDirWalk [] with
  | .error e => ([], .error (.loadPeriodics e))
  | .ok jobs =>
    match w.configFile with
    | .unreadable => ([], .error .readConfigFile)
    | .malformed => ([], .error .unmarshalConfigFile)
    | .ok generatorConfig =>
      match w.ciopConfigs with
      | none => ([], .error .loadCiopConfigs)
      | some ciopConfigs =>
        match reconcile ext generatorConfig ciopConfigs (ext.rangeOrder _ 254 [] jobs) with
        | (_, some stop) => ([], stop.toOutcome)
        | (st, none) =>
          match runLoop (writeConfig ext w ciopConfigs) []
              (ext.rangeOrder _ 348 [] st.replacements) with
          | (log, some stop) => (log, stop.toOutcome)
          | (log, none) =>
            match runLoop (writeJobConfig w st.replacedJobs) log
                (ext.rangeOrder _ 370 [] jobs) with
            | (log, some stop) => (log, stop.toOutcome)
            | (log, none) =>
              match runLoop (rewriteRcFile ext w st.replacedJobs) log w.rcDirWalk with
              | (log, some stop) => (log, stop.toOutcome)
              | (log, none) => (log, .success (makeReport st))

/-- The accumulators only grow: every key of the job-name mapping of `a` is a
key of that of `b`, every config-less test of `a` is one of `b`, and every
file with a record in `a` has one in `b`. -/
def LoopState.GrowsTo (a b : LoopState) : Prop :=
  (∀ k, GoMap.lookup a.replacedJobs k ≠ none → GoMap.lookup b.replacedJobs k ≠ none)
    ∧ (∀ t, t ∈ a.configlessTests → t ∈ b.configlessTests)
    ∧ (∀ f, GoMap.lookup a.replacements f ≠ none → GoMap.lookup b.replacements f ≠ none)

/-- The job files as the pruning loop of `run` leaves them: every file keeps
its name and holds its periodic list without the replaced jobs. -/
def prunedJobs (replacedJobs : GoMap GoString) (jobs : GoMap JobConfig) : GoMap JobConfig :=
  jobs.map (fun file => (file.1, ⟨prunePeriodics replacedJobs file.2.Periodics⟩))

/-- The test names of a target file are pairwise distinct: the names of the
tests of the existing build configuration of the file followed by the names
of the tests accumulated for it, in the order in which `run` writes them. -/
def TestNamesDistinct (ciopConfigs : GoMap DataWithInfo) (st : LoopState) : Prop :=
  ∀ f, (((ciopConfiguration ciopConfigs f).Tests
    ++ (replacementRecord st.replacements f).tests).map (fun t => t.As)).Nodup

/-- The token `fmt.Sprintf("$(%s)", name)` that the substitution loops search
for. -/
def envToken (name : GoString) : GoString :=
  "$(".toList ++ name ++ ")".toList

/-! ## Concrete externals for the examples -/

/-- Modelled from the spec: `(*api.Metadata).Basename`, declared outside the
sources; the basename is a function of organization, repository, branch and
variant, and `newDataWithInfoFromFilename` reads the variant back after a
double underscore and before `.yaml`. -/
def Metadata.Basename (m : Metadata) : GoString :=
  stringsJoin "-".toList [m.Org, m.Repo, m.Branch]
    ++ (if m.Variant = [] then [] else "__".toList ++ m.Variant) ++ ".yaml".toList

/-- Modelled from the spec: `(*api.Metadata).JobName`, declared outside the
sources; the new job name carries the same metadata, the prefix for periodics
in front and the test name at the end. -/
def Metadata.JobName (m : Metadata) (pfx name : GoString) : GoString :=
  pfx ++ "-ci-".toList ++ m.Org ++ "-".toList ++ m.Repo ++ "-".toList ++ m.Branch
    ++ "-".toList ++ (if m.Variant = [] then name else m.Variant ++ "-".toList ++ name)

/-- The externals used in the examples: the two functions above, a decoder
that accepts no embedded configuration, and maps visited in the order of
their entries. -/
def exampleExternals : Externals :=
  { Basename := Metadata.Basename
    JobName := Metadata.JobName
    unmarshalConfig := fun _ => none
    rangeOrder := fun _ _ _ m => m }

/-- A periodic job that runs `ci-operator` with a cron schedule and neither
arguments nor environment. -/
def examplePeriodic (name : GoString) : Periodic :=
  { Name := name, Cron := "0 6 * * *".toList, Interval := []
    Spec := some [{ Command := ["ci-operator".toList], Args := [], Env := [] }] }

/-- A world with one job file holding the given periodic jobs, the given
generator table, the given build configurations on disk, the given
release-controller files, and no failing write. -/
def exampleWorld (periodics : List Periodic) (table : GoMap testConfig)
    (ciopConfigs : GoMap DataWithInfo) (rcFiles : List RcDirEntry) : World :=
  { jobDirBase := "jobs".toList
    jobDirWalk := [{ Path := "jobs/release-periodics.yaml".toList
                     Name := "release-periodics.yaml".toList
                     IsDir := false, walkErr := false, file := .ok ⟨periodics⟩ }]
    configFile := .ok ⟨table⟩
    ciopConfigs := some ciopConfigs
    rcDirWalk := rcFiles
    writeFails := fun _ _ => false }

/-- A candidate that carries `UNRESOLVED_CONFIG` and runs `ci-operator` with
the given arguments. -/
def exampleUnresolvedPeriodic (args : List GoString) : Periodic :=
  { Name := "release-openshift-ocp-installer-e2e-aws-4.8".toList
    Cron := "0 6 * * *".toList, Interval := []
    Spec := some [{ Command := ["ci-operator".toList], Args := args
                    Env := [⟨"UNRESOLVED_CONFIG".toList, "tests: []".toList⟩] }] }

/-! ## Facts about splitting and joining -/

theorem stringsSplit_ne_nil (sep : Char) (s : GoString) : stringsSplit sep s ≠ [] := by
  cases s with
  | nil => simp [stringsSplit]
  | cons c cs =>
    simp only [stringsSplit]
    split
    · simp
    · split <;> simp

theorem stringsJoin_cons_cons (sep a b : GoString) (l : List GoString) :
    stringsJoin sep (a :: b :: l) = a ++ sep ++ stringsJoin sep (b :: l) := rfl

theorem stringsJoin_split (sep : Char) (s : GoString) :
    stringsJoin [sep] (stringsSplit sep s) = s := by
  induction s with
  | nil => rfl
  | cons c cs ih =>
    simp only [stringsSplit]
    split
    · next h =>
      obtain ⟨p, ps, hp⟩ := List.exists_cons_of_ne_nil (stringsSplit_ne_nil sep cs)
      rw [hp] at ih ⊢
      rw [stringsJoin_cons_cons, ih, h]
      rfl
    · split
      · next hnil => exact absurd hnil (stringsSplit_ne_nil sep cs)
      · next piece pieces hp =>
        rw [hp] at ih
        cases pieces with
        | nil =>
          simp only [stringsJoin] at ih ⊢
          rw [ih]
        | cons q qs =>
          rw [stringsJoin_cons_cons] at ih ⊢
          rw [← ih]
          simp

theorem stringsSplit_append_sep (sep : Char) (p rest : GoString) (hp : sep ∉ p) :
    stringsSplit sep (p ++ sep :: rest) = p :: stringsSplit sep rest := by
  induction p with
  | nil => simp [stringsSplit]
  | cons c cs ih =>
    have hc : c ≠ sep := fun h => hp (by simp [h])
    have hcs : sep ∉ cs := fun h => hp (by simp [h])
    rw [List.cons_append, stringsSplit, if_neg hc, ih hcs]

theorem stringsJoin_append_singleton (sep x : GoString) (l : List GoString) (hl : l ≠ []) :
    stringsJoin sep (l ++ [x]) = stringsJoin sep l ++ sep ++ x := by
  induction l with
  | nil => exact absurd rfl hl
  | cons a t ih =>
    cases t with
    | nil => rfl
    | cons b u =>
      have := ih (by simp)
      simp only [List.cons_append] at this ⊢
      rw [stringsJoin_cons_cons, this, stringsJoin_cons_cons]
      simp

/-! ## Facts about the regular expression -/

theorem regexMatchString_iff (re : List RegexAtom) (s : GoString) :
    regexMatchString re s = true ↔
      ∃ pre post, s = pre ++ post ∧ regexMatchHere re post = true := by
  induction s with
  | nil =>
    simp only [regexMatchString]
    constructor
    · intro h; exact ⟨[], [], rfl, h⟩
    · rintro ⟨pre, post, hs, h⟩
      have hpost : post = [] := (List.append_eq_nil.1 hs.symm).2
      rw [hpost] at h; exact h
  | cons c cs ih =>
    simp only [regexMatchString, Bool.or_eq_true, ih]
    constructor
    · rintro (h | ⟨pre, post, hs, h⟩)
      · exact ⟨[], c :: cs, rfl, h⟩
      · exact ⟨c :: pre, post, by rw [hs]; rfl, h⟩
    · rintro ⟨pre, post, hs, h⟩
      cases pre with
      | nil =>
        left
        simp only [List.nil_append] at hs
        rw [hs]; exact h
      | cons d pre =>
        right
        simp only [List.cons_append, List.cons.injEq] at hs
        exact ⟨pre, post, hs.2, h⟩

theorem versionRegex_matchHere_iff (s : GoString) :
    regexMatchHere versionRegex s = true ↔
      ∃ c d rest, s = '4' :: c :: d :: rest ∧ c ≠ '\n' ∧ d.isDigit = true := by
  constructor
  · intro h
    match s, h with
    | a :: c :: d :: rest, h =>
      simp only [versionRegex, regexMatchHere, RegexAtom.accepts, Bool.and_eq_true,
        decide_eq_true_eq, Bool.and_true] at h
      exact ⟨c, d, rest, by rw [h.1], h.2.1, h.2.2⟩
    | [], h => simp [versionRegex, regexMatchHere] at h
    | [a], h => simp [versionRegex, regexMatchHere] at h
    | [a, c], h => simp [versionRegex, regexMatchHere] at h
  · rintro ⟨c, d, rest, hs, hc, hd⟩
    subst hs
    simp [versionRegex, regexMatchHere, RegexAtom.accepts, hc, hd]

theorem versionRegex_matchString_iff (s : GoString) :
    regexMatchString versionRegex s = true ↔
      ∃ pre c d post, s = pre ++ '4' :: c :: d :: post ∧ c ≠ '\n' ∧ d.isDigit = true := by
  rw [regexMatchString_iff]
  constructor
  · rintro ⟨pre, post, hs, h⟩
    obtain ⟨c, d, rest, hp, hc, hd⟩ := (versionRegex_matchHere_iff post).1 h
    exact ⟨pre, c, d, rest, by rw [hs, hp], hc, hd⟩
  · rintro ⟨pre, c, d, post, hs, hc, hd⟩
    exact ⟨pre, '4' :: c :: d :: post, hs,
      (versionRegex_matchHere_iff _).2 ⟨c, d, post, rfl, hc, hd⟩⟩

/-! ## Facts about `getJobInfo` -/

theorem getJobInfo_true_iff (jobName : GoString) :
    (getJobInfo jobName).2 = true ↔
      stringsStartsWith jobName "release-openshift-".toList = true
        ∧ 6 ≤ (stringsSplit '-' jobName).length
        ∧ regexMatchString versionRegex
            ((stringsSplit '-' jobName).getD ((stringsSplit '-' jobName).length - 1) [])
            = true := by
  by_cases h1 : stringsStartsWith jobName "release-openshift-".toList = true
  · by_cases h2 : (stringsSplit '-' jobName).length < 6
    · have h2n : ¬ 6 ≤ (stringsSplit '-' jobName).length := by omega
      simp [getJobInfo, h1, h2, h2n]
    · have h2n : 6 ≤ (stringsSplit '-' jobName).length := by omega
      by_cases h3 : regexMatchString versionRegex
          ((stringsSplit '-' jobName).getD ((stringsSplit '-' jobName).length - 1) []) = true
      · simp only [getJobInfo, h1, h2, h3, Bool.not_true, Bool.false_eq_true, if_false,
          and_self, h2n]
      · simp only [getJobInfo, h1, h2, h3, Bool.not_true, Bool.false_eq_true, if_false,
          Bool.not_eq_true, Bool.not_eq_true] at h3 ⊢
        simp [h3]
  · simp only [String.toList, Bool.not_eq_true] at h1
    simp [getJobInfo, h1]

theorem getJobInfo_fst_of_true (jobName : GoString) (h : (getJobInfo jobName).2 = true) :
    (getJobInfo jobName).1 =
      { As := stringsJoin "-".toList
          (goSlice (stringsSplit '-' jobName) 4 ((stringsSplit '-' jobName).length - 1))
        Product := (stringsSplit '-' jobName).getD 2 []
        Version := (stringsSplit '-' jobName).getD ((stringsSplit '-' jobName).length - 1) [] } := by
  obtain ⟨h1, h2, h3⟩ := (getJobInfo_true_iff jobName).1 h
  have h2n : ¬ (stringsSplit '-' jobName).length < 6 := by omega
  simp only [getJobInfo, h1, h2n, h3, Bool.not_true, Bool.false_eq_true, if_false]

theorem goSlice_eq_map_range {α : Type} (xs : List α) (lo hi : Nat) (d : α)
    (hhi : hi ≤ xs.length) :
    goSlice xs lo hi = (List.range (hi - lo)).map (fun i => xs.getD (lo + i) d) := by
  apply List.ext_getElem?
  intro i
  simp only [goSlice, List.getElem?_drop, List.getElem?_map, List.getElem?_take]
  by_cases hi2 : i < hi - lo
  · have h1 : lo + i < hi := by omega
    have h2 : lo + i < xs.length := by omega
    simp [List.getElem?_range hi2, h1, List.getD_eq_getElem?_getD, List.getElem?_eq_getElem h2]
  · have h1 : ¬ lo + i < hi := by omega
    have h3 : (List.range (hi - lo))[i]? = none :=
      List.getElem?_eq_none (by simp only [List.length_range]; omega)
    simp [h1, h3]

theorem segments_decompose (s : List GoString) (h : 6 ≤ s.length) :
    ∃ a b c d mid last, s = a :: b :: c :: d :: (mid ++ [last]) ∧ mid ≠ []
      ∧ goSlice s 4 (s.length - 1) = mid ∧ s.getD (s.length - 1) [] = last := by
  match s, h with
  | a :: b :: c :: d :: rest, h =>
    have hlen : 2 ≤ rest.length := by simp only [List.length_cons] at h; omega
    have hne : rest ≠ [] := by intro h0; rw [h0] at hlen; simp at hlen
    refine ⟨a, b, c, d, rest.dropLast, rest.getLast hne, ?_, ?_, ?_, ?_⟩
    · rw [List.dropLast_append_getLast hne]
    · intro h0
      have := congrArg List.length h0
      simp only [List.length_dropLast, List.length_nil] at this
      omega
    · simp only [goSlice, List.length_cons, Nat.add_sub_cancel]
      rw [show rest.length + 1 + 1 + 1 = (rest.length - 1) + 4 by omega]
      simp only [List.take_succ_cons, List.drop_succ_cons, List.drop_zero]
      exact (List.dropLast_eq_take rest).symm
    · simp only [List.length_cons, Nat.add_sub_cancel]
      rw [show rest.length + 1 + 1 + 1 = (rest.length - 1) + 4 by omega]
      simp only [List.getD_cons_succ]
      rw [List.getD_eq_getElem?_getD, ← List.getLast?_eq_getElem?,
        List.getLast?_eq_getLast rest hne]
      rfl

theorem getJobInfo_rejoin_general (jobName : GoString) (h : (getJobInfo jobName).2 = true) :
    stringsJoin "-".toList
      ["release-openshift".toList, (getJobInfo jobName).1.Product,
        (stringsSplit '-' jobName).getD 3 [], (getJobInfo jobName).1.As,
        (getJobInfo jobName).1.Version] = jobName := by
  obtain ⟨h1, h2, -⟩ := (getJobInfo_true_iff jobName).1 h
  rw [getJobInfo_fst_of_true jobName h]
  obtain ⟨rest, hrest⟩ : ∃ rest, jobName = "release-openshift-".toList ++ rest := by
    have := List.isPrefixOf_iff_prefix.1 h1
    obtain ⟨t, ht⟩ := this
    exact ⟨t, ht.symm⟩
  have hsplit : stringsSplit '-' jobName =
      "release".toList :: "openshift".toList :: stringsSplit '-' rest := by
    rw [hrest]
    have e1 : "release-openshift-".toList ++ rest
        = "release".toList ++ '-' :: ("openshift".toList ++ '-' :: rest) := rfl
    rw [e1, stringsSplit_append_sep _ _ _ (by decide),
      stringsSplit_append_sep _ _ _ (by decide)]
  obtain ⟨a, b, c, d, mid, last, hs, hmid, hslice, hlast⟩ :=
    segments_decompose (stringsSplit '-' jobName) h2
  have hjoin := stringsJoin_split '-' jobName
  rw [hslice, hlast]
  rw [hs] at hsplit hjoin ⊢
  simp only [List.cons.injEq] at hsplit
  obtain ⟨ha, hb, -⟩ := hsplit
  subst ha hb
  have hne : c :: d :: (mid ++ [last]) ≠ [] := by simp
  conv_rhs => rw [← hjoin]
  have hmidlast : stringsJoin ['-'] (mid ++ [last]) = stringsJoin ['-'] mid ++ ['-'] ++ last :=
    stringsJoin_append_singleton _ _ _ hmid
  obtain ⟨m, ms, hm⟩ := List.exists_cons_of_ne_nil hmid
  have hml : mid ++ [last] = m :: (ms ++ [last]) := by rw [hm]; rfl
  simp only [List.getD_cons_succ, List.getD_cons_zero, String.toList]
  rw [hml] at hmidlast ⊢
  simp only [stringsJoin_cons_cons, hmidlast]
  simp [stringsJoin]

/-- C1, as stated, fails: `release-openshift-ocp-upgrade-e2e-4.8` is accepted
although its segment at index 3 is not `installer`, and joining
`release-openshift`, the product, `installer`, the test name and the version
gives a different name. -/
theorem getJobInfo_rejoin_counterexample :
    (getJobInfo "release-openshift-ocp-upgrade-e2e-4.8".toList).2 = true
      ∧ specRejoin (getJobInfo "release-openshift-ocp-upgrade-e2e-4.8".toList).1
          = "release-openshift-ocp-installer-e2e-4.8".toList
      ∧ specRejoin (getJobInfo "release-openshift-ocp-upgrade-e2e-4.8".toList).1
          ≠ "release-openshift-ocp-upgrade-e2e-4.8".toList := by
  decide

/-- C1, amended: for every job name accepted by `getJobInfo` whose segment at
index 3 is `installer`, joining `release-openshift`, the returned Product, the
literal `installer`, the returned As and the returned Version with hyphens
reproduces the name. -/
theorem getJobInfo_rejoin (jobName : GoString) (h : (getJobInfo jobName).2 = true)
    (h3 : (stringsSplit '-' jobName).getD 3 [] = "installer".toList) :
    specRejoin (getJobInfo jobName).1 = jobName := by
  have := getJobInfo_rejoin_general jobName h
  rw [h3] at this
  exact this

theorem getJobInfo_rejoin_witness :
    (getJobInfo "release-openshift-ocp-installer-e2e-aws-4.8".toList).2 = true
      ∧ (getJobInfo "release-openshift-ocp-installer-e2e-aws-4.8".toList).1
          = ⟨"e2e-aws".toList, "ocp".toList, "4.8".toList⟩
      ∧ specRejoin (getJobInfo "release-openshift-ocp-installer-e2e-aws-4.8".toList).1
          = "release-openshift-ocp-installer-e2e-aws-4.8".toList :=
  ⟨by decide, by decide,
    getJobInfo_rejoin "release-openshift-ocp-installer-e2e-aws-4.8".toList (by decide)
      (by decide)⟩

/-- C2, as stated, fails in both directions: a trailing `4x8` (no literal dot)
and a trailing `4.10` (two minor digits) are accepted by the code although they
are not a digit, a dot and a single digit, and a trailing `3.8` is such a
segment but is rejected by the code. -/
theorem getJobInfo_candidate_counterexample :
    ((getJobInfo "release-openshift-ocp-installer-e2e-4x8".toList).2 = true
        ∧ specIsCandidate "release-openshift-ocp-installer-e2e-4x8".toList = false)
      ∧ ((getJobInfo "release-openshift-ocp-installer-e2e-4.10".toList).2 = true
        ∧ specIsCandidate "release-openshift-ocp-installer-e2e-4.10".toList = false)
      ∧ ((getJobInfo "release-openshift-ocp-installer-e2e-3.8".toList).2 = false
        ∧ specIsCandidate "release-openshift-ocp-installer-e2e-3.8".toList = true) := by
  decide

/-- C2, amended: every name `getJobInfo` reports as a candidate starts with
`release-openshift-`, has at least 6 hyphen-delimited segments and has a last
segment that contains the digit 4 followed, one character later, by a digit;
and every name with that prefix and at least 6 segments whose last segment
contains the digit 4, a literal dot and a digit is reported as a candidate. -/
theorem getJobInfo_candidate (jobName : GoString) :
    ((getJobInfo jobName).2 = true →
        stringsStartsWith jobName "release-openshift-".toList = true
          ∧ 6 ≤ (stringsSplit '-' jobName).length
          ∧ ∃ pre c d post,
              (stringsSplit '-' jobName).getD ((stringsSplit '-' jobName).length - 1) []
                = pre ++ '4' :: c :: d :: post ∧ d.isDigit = true)
      ∧ (stringsStartsWith jobName "release-openshift-".toList = true →
          6 ≤ (stringsSplit '-' jobName).length →
          (∃ pre d post,
              (stringsSplit '-' jobName).getD ((stringsSplit '-' jobName).length - 1) []
                = pre ++ '4' :: '.' :: d :: post ∧ d.isDigit = true) →
          (getJobInfo jobName).2 = true) := by
  constructor
  · intro h
    obtain ⟨h1, h2, h3⟩ := (getJobInfo_true_iff jobName).1 h
    obtain ⟨pre, c, d, post, hs, -, hd⟩ := (versionRegex_matchString_iff _).1 h3
    exact ⟨h1, h2, pre, c, d, post, hs, hd⟩
  · rintro h1 h2 ⟨pre, d, post, hs, hd⟩
    exact (getJobInfo_true_iff jobName).2
      ⟨h1, h2, (versionRegex_matchString_iff _).2 ⟨pre, '.', d, post, hs, by decide, hd⟩⟩

theorem getJobInfo_candidate_witness :
    (getJobInfo "release-openshift-ocp-installer-e2e-aws-4.8".toList).2 = true :=
  (getJobInfo_candidate "release-openshift-ocp-installer-e2e-aws-4.8".toList).2
    (by decide) (by decide) ⟨[], '8', [], by decide, by decide⟩

/-- C3: for every job name accepted by `getJobInfo`, with segments `s` (split
on the hyphen) of length `n`: `n` is at least 6, the returned Product is
`s[2]`, the returned Version is `s[n-1]`, and the returned test name As is the
hyphen-join of `s[4], ..., s[n-2]`, so neither the segment at index 3 nor the
trailing version segment is part of it. -/
theorem getJobInfo_fields (jobName : GoString) (h : (getJobInfo jobName).2 = true) :
    6 ≤ (stringsSplit '-' jobName).length
      ∧ (stringsSplit '-' jobName)[2]? = some (getJobInfo jobName).1.Product
      ∧ (stringsSplit '-' jobName)[(stringsSplit '-' jobName).length - 1]?
          = some (getJobInfo jobName).1.Version
      ∧ (getJobInfo jobName).1.As
          = stringsJoin "-".toList
              ((List.range ((stringsSplit '-' jobName).length - 1 - 4)).map
                (fun i => (stringsSplit '-' jobName).getD (4 + i) [])) := by
  obtain ⟨-, h2, -⟩ := (getJobInfo_true_iff jobName).1 h
  rw [getJobInfo_fst_of_true jobName h]
  refine ⟨h2, ?_, ?_, ?_⟩
  · have h3 : 2 < (stringsSplit '-' jobName).length := by omega
    simp [List.getD_eq_getElem?_getD, List.getElem?_eq_getElem h3]
  · have h3 : (stringsSplit '-' jobName).length - 1 < (stringsSplit '-' jobName).length := by
      omega
    simp [List.getD_eq_getElem?_getD, List.getElem?_eq_getElem h3]
  · show stringsJoin _ (goSlice _ 4 _) = _
    rw [goSlice_eq_map_range _ 4 _ [] (by omega)]

theorem getJobInfo_fields_witness :
    (stringsSplit '-' "release-openshift-ocp-installer-e2e-aws-4.8".toList)[2]?
        = some "ocp".toList
      ∧ (getJobInfo "release-openshift-ocp-installer-e2e-aws-4.8".toList).1.As
        = "e2e-aws".toList :=
  ⟨by decide,
    ((getJobInfo_fields "release-openshift-ocp-installer-e2e-aws-4.8".toList
      (by decide)).2.2.2).trans (by decide)⟩

/-! ## Facts about `updateBaseImages` -/

theorem image_fields_differ_iff (a b : ImageStreamTagReference) :
    (a.As ≠ b.As ∨ a.Name ≠ b.Name ∨ a.Namespace ≠ b.Namespace ∨ a.Tag ≠ b.Tag) ↔ a ≠ b := by
  cases a; cases b
  simp only [ne_eq, ImageStreamTagReference.mk.injEq]
  tauto

theorem fillDefaults_of_filled (b : ImageStreamTagReference) (version : GoString)
    (hns : b.Namespace ≠ []) (hname : b.Name ≠ []) : fillDefaults b version = b := by
  simp [fillDefaults, hns, hname]

theorem updateBaseImages_single (ciOpImages replacementImages : GoMap ImageStreamTagReference)
    (version name : GoString) (a b : ImageStreamTagReference)
    (hknown : (GoMap.lookup replacementImages name <|> GoMap.lookup ciOpImages name) = some a) :
    updateBaseImages [(name, b)] ciOpImages replacementImages version
      = (replacementImages,
          if a = fillDefaults b version then none
          else some (.imageConflict name a (fillDefaults b version))) := by
  simp only [updateBaseImages, hknown, image_fields_differ_iff]
  by_cases h : a = fillDefaults b version
  · simp [h]
  · simp [h]

/-- C4, as stated, fails: the on-disk image `ocp/4.8:base` and a new image
with the same tag whose Namespace and Name are left empty differ field by
field, yet merging the new one under the same name returns no error (for the
version 4.8); and two identical references with empty Namespace and Name do
conflict. -/
theorem updateBaseImages_counterexample :
    ((⟨"ocp".toList, "4.8".toList, "base".toList, []⟩ : ImageStreamTagReference)
        ≠ ⟨[], [], "base".toList, []⟩
      ∧ (updateBaseImages [("base".toList, ⟨[], [], "base".toList, []⟩)]
          [("base".toList, ⟨"ocp".toList, "4.8".toList, "base".toList, []⟩)] []
          "4.8".toList).2 = none)
      ∧ (updateBaseImages [("base".toList, ⟨[], [], "base".toList, []⟩)]
          [("base".toList, ⟨[], [], "base".toList, []⟩)] [] "4.8".toList).2
        = some (.imageConflict "base".toList ⟨[], [], "base".toList, []⟩
            ⟨"ocp".toList, "4.8".toList, "base".toList, []⟩) := by
  decide

/-- C4, amended: when `updateBaseImages` is given one new image `b` under a
name whose already-known reference (in the accumulated replacement images or,
failing that, in the on-disk base images) is `a`, it leaves the accumulated
images as they are and returns no error when `a` is field-for-field identical
to `b` after defaulting (an empty Namespace of `b` becomes `ocp`, an empty Name
becomes the version), and the conflict error naming both values when they
differ.  Defaulting changes nothing when Namespace and Name of `b` are set, and
when they are set in both `a` and `b` the outcome is the same with the roles of
`a` and `b` swapped. -/
theorem updateBaseImages_known (ciOpImages replacementImages : GoMap ImageStreamTagReference)
    (version name : GoString) (a b : ImageStreamTagReference)
    (hknown : (GoMap.lookup replacementImages name <|> GoMap.lookup ciOpImages name) = some a) :
    updateBaseImages [(name, b)] ciOpImages replacementImages version
        = (replacementImages,
            if a = fillDefaults b version then none
            else some (.imageConflict name a (fillDefaults b version)))
      ∧ (b.Namespace ≠ [] → b.Name ≠ [] → fillDefaults b version = b)
      ∧ (a.Namespace ≠ [] → a.Name ≠ [] → b.Namespace ≠ [] → b.Name ≠ [] →
          ∀ ciOpImages2 replacementImages2 : GoMap ImageStreamTagReference,
            (GoMap.lookup replacementImages2 name <|> GoMap.lookup ciOpImages2 name) = some b →
            ((updateBaseImages [(name, a)] ciOpImages2 replacementImages2 version).2 = none
              ↔ (updateBaseImages [(name, b)] ciOpImages replacementImages version).2 = none)) := by
  refine ⟨updateBaseImages_single _ _ _ _ a b hknown, fillDefaults_of_filled b version, ?_⟩
  intro ha1 ha2 hb1 hb2 ciOp2 repl2 hknown2
  rw [updateBaseImages_single _ _ _ _ a b hknown, updateBaseImages_single _ _ _ _ b a hknown2,
    fillDefaults_of_filled a version ha1 ha2, fillDefaults_of_filled b version hb1 hb2]
  by_cases h : a = b
  · simp [h]
  · have h2 : ¬ b = a := fun e => h e.symm
    simp [h, h2]

theorem updateBaseImages_known_witness :
    updateBaseImages [("base".toList, ⟨[], [], "base".toList, []⟩)]
        [("base".toList, ⟨"ocp".toList, "4.9".toList, "base".toList, []⟩)] [] "4.8".toList
      = ([], some (.imageConflict "base".toList ⟨"ocp".toList, "4.9".toList, "base".toList, []⟩
            ⟨"ocp".toList, "4.8".toList, "base".toList, []⟩)) :=
  ((updateBaseImages_known [("base".toList, ⟨"ocp".toList, "4.9".toList, "base".toList, []⟩)] []
    "4.8".toList "base".toList ⟨"ocp".toList, "4.9".toList, "base".toList, []⟩
    ⟨[], [], "base".toList, []⟩ (by decide)).1).trans (by decide)



/-! ## Facts about pruning -/

theorem prunePeriodics_foldl (replacedJobs : GoMap GoString) (periodics kept : List Periodic) :
    periodics.foldl (fun kept job =>
        if (GoMap.lookup replacedJobs job.Name).isNone then kept ++ [job] else kept) kept
      = kept ++ periodics.filter (fun job => (GoMap.lookup replacedJobs job.Name).isNone) := by
  induction periodics generalizing kept with
  | nil => simp
  | cons job rest ih =>
    simp only [List.foldl_cons, ih, List.filter_cons]
    split <;> simp

theorem prunePeriodics_eq_filter (replacedJobs : GoMap GoString) (periodics : List Periodic) :
    prunePeriodics replacedJobs periodics
      = periodics.filter (fun job => (GoMap.lookup replacedJobs job.Name).isNone) := by
  rw [prunePeriodics, prunePeriodics_foldl, List.nil_append]

/-! ## Facts about `ReplaceAll` -/

theorem replaceAllAux_skip (old new : GoString) (k : Nat) (s : GoString) :
    replaceAllAux old new k s = replaceAllAux old new 0 (s.drop k) := by
  induction s generalizing k with
  | nil => cases k <;> simp [replaceAllAux]
  | cons c cs ih =>
    cases k with
    | zero => simp
    | succ k => simp only [replaceAllAux, List.drop_succ_cons]; exact ih k

theorem replaceAllAux_cons (old new : GoString) (c : Char) (cs : GoString) (hold : old ≠ []) :
    replaceAllAux old new 0 (c :: cs)
      = if old <+: c :: cs then new ++ replaceAllAux old new 0 ((c :: cs).drop old.length)
        else c :: replaceAllAux old new 0 cs := by
  have hlen : old.length = (old.length - 1) + 1 := by
    have := List.length_pos.2 hold
    omega
  simp only [replaceAllAux, List.isPrefixOf_iff_prefix]
  split
  · rw [replaceAllAux_skip]
    conv_rhs => rw [hlen, List.drop_succ_cons]
  · rfl

theorem replaceAll_pieces_aux (old new : GoString) (hold : old ≠ []) (n : Nat) :
    ∀ s : GoString, s.length ≤ n →
      ∃ pieces : List GoString, pieces ≠ [] ∧ s = stringsJoin old pieces
        ∧ replaceAllAux old new 0 s = stringsJoin new pieces
        ∧ ∀ p ∈ pieces, ¬ old <:+: p := by
  induction n with
  | zero =>
    intro s hs
    have : s = [] := List.length_eq_zero.1 (by omega)
    subst this
    refine ⟨[[]], by simp, rfl, rfl, ?_⟩
    intro p hp
    simp only [List.mem_singleton] at hp
    subst hp
    simpa using hold
  | succ n ih =>
    intro s hs
    cases s with
    | nil =>
      refine ⟨[[]], by simp, rfl, rfl, ?_⟩
      intro p hp
      simp only [List.mem_singleton] at hp
      subst hp
      simpa using hold
    | cons c cs =>
      rw [replaceAllAux_cons old new c cs hold]
      by_cases hpre : old <+: c :: cs
      · rw [if_pos hpre]
        obtain ⟨t, ht⟩ := hpre
        have hdrop : (c :: cs).drop old.length = t := by
          rw [← ht]; simp
        have hlt : t.length ≤ n := by
          have h1 := congrArg List.length ht
          have h2 := List.length_pos.2 hold
          simp only [List.length_append, List.length_cons] at h1 hs
          omega
        obtain ⟨pieces, hne, hjoin, hrep, hfree⟩ := ih t hlt
        obtain ⟨q, qs, hq⟩ := List.exists_cons_of_ne_nil hne
        refine ⟨[] :: pieces, by simp, ?_, ?_, ?_⟩
        · rw [hq, stringsJoin_cons_cons, ← hq, ← hjoin, ← ht]; simp
        · rw [hdrop, hrep, hq, stringsJoin_cons_cons]; simp
        · intro p hp
          rcases List.mem_cons.1 hp with h | h
          · subst h; simpa using hold
          · exact hfree p h
      · rw [if_neg hpre]
        have hlt : cs.length ≤ n := by simp only [List.length_cons] at hs; omega
        obtain ⟨pieces, hne, hjoin, hrep, hfree⟩ := ih cs hlt
        obtain ⟨q, qs, hq⟩ := List.exists_cons_of_ne_nil hne
        subst hq
        have hqpre : q <+: cs := by
          cases qs with
          | nil => simp only [stringsJoin] at hjoin; rw [hjoin]
          | cons r rs =>
            rw [stringsJoin_cons_cons] at hjoin
            rw [hjoin, List.append_assoc]
            exact List.prefix_append _ _
        refine ⟨(c :: q) :: qs, by simp, ?_, ?_, ?_⟩
        · cases qs with
          | nil => simp only [stringsJoin] at hjoin ⊢; rw [hjoin]
          | cons r rs =>
            rw [stringsJoin_cons_cons] at hjoin ⊢
            rw [hjoin]; simp
        · rw [hrep]
          cases qs with
          | nil => simp [stringsJoin]
          | cons r rs => simp [stringsJoin_cons_cons]
        · intro p hp
          rcases List.mem_cons.1 hp with h | h
          · subst h
            intro hin
            rcases List.infix_cons_iff.1 hin with h1 | h1
            · exact hpre (h1.trans ((List.prefix_cons_inj c).2 hqpre))
            · exact hfree q (by simp) h1
          · exact hfree p (List.mem_cons_of_mem _ h)

theorem stringsReplaceAll_pieces (s old new : GoString) (hold : old ≠ []) :
    ∃ pieces : List GoString, pieces ≠ [] ∧ s = stringsJoin old pieces
      ∧ stringsReplaceAll s old new = stringsJoin new pieces
      ∧ ∀ p ∈ pieces, ¬ old <:+: p := by
  obtain ⟨c, cs, hc⟩ := List.exists_cons_of_ne_nil hold
  have := replaceAll_pieces_aux old new hold s.length s (le_refl _)
  subst hc
  exact this

theorem stringsReplaceAll_of_not_infix (s old new : GoString) (hold : old ≠ [])
    (h : ¬ old <:+: s) : stringsReplaceAll s old new = s := by
  obtain ⟨pieces, hne, hjoin, hrep, -⟩ := stringsReplaceAll_pieces s old new hold
  obtain ⟨q, qs, hq⟩ := List.exists_cons_of_ne_nil hne
  subst hq
  cases qs with
  | nil => rw [hrep]; simp only [stringsJoin] at hjoin ⊢; exact hjoin.symm
  | cons r rs =>
    exfalso
    apply h
    rw [hjoin, stringsJoin_cons_cons]
    exact ⟨q, stringsJoin old (r :: rs), by simp⟩

theorem replaceJobNames_append (done : GoMap GoString) (e : GoString × GoString)
    (raw : GoString) :
    replaceJobNames (done ++ [e]) raw = stringsReplaceAll (replaceJobNames done raw) e.1 e.2 := by
  simp [replaceJobNames, List.foldl_append]

/-- C9: the periodic list handed to the job-definition file of the same name
is the original list filtered to the jobs whose name is not a key of the
mapping: it is a sublist of the original (kept jobs unchanged and in their
original order), none of its jobs has a name in the mapping, and every job
whose name is not in the mapping is kept. -/
theorem writeJobConfig_prunes (w : World) (replacedJobs : GoMap GoString) (log : List WriteOp)
    (entry : GoString × JobConfig) :
    (∃ failed, (writeJobConfig w replacedJobs log entry).1
        = log ++ [⟨.jobDir, entry.1,
            .jobConfig ⟨entry.2.Periodics.filter
              (fun job => (GoMap.lookup replacedJobs job.Name).isNone)⟩, failed⟩])
      ∧ List.Sublist (prunePeriodics replacedJobs entry.2.Periodics) entry.2.Periodics
      ∧ (∀ job, job ∈ prunePeriodics replacedJobs entry.2.Periodics →
          GoMap.lookup replacedJobs job.Name = none)
      ∧ (∀ job, job ∈ entry.2.Periodics → GoMap.lookup replacedJobs job.Name = none →
          job ∈ prunePeriodics replacedJobs entry.2.Periodics) := by
  refine ⟨?_, ?_, ?_, ?_⟩
  · unfold writeJobConfig
    rw [prunePeriodics_eq_filter]
    by_cases hfail : w.writeFails .jobDir entry.1 = true
    · exact ⟨true, by simp only [hfail, if_true]⟩
    · exact ⟨false, by simp [hfail]⟩
  · rw [prunePeriodics_eq_filter]
    exact List.filter_sublist _
  · intro job hjob
    rw [prunePeriodics_eq_filter, List.mem_filter] at hjob
    simpa using hjob.2
  · intro job hjob hnone
    rw [prunePeriodics_eq_filter, List.mem_filter]
    exact ⟨hjob, by simp [hnone]⟩

theorem writeJobConfig_prunes_witness :
    examplePeriodic "kept".toList
      ∈ prunePeriodics [("gone".toList, "new".toList)]
          [examplePeriodic "gone".toList, examplePeriodic "kept".toList] :=
  (writeJobConfig_prunes (exampleWorld [] [] [] []) [("gone".toList, "new".toList)] []
    ("f".toList, ⟨[examplePeriodic "gone".toList, examplePeriodic "kept".toList]⟩)).2.2.2
    (examplePeriodic "kept".toList) (by decide) (by decide)

/-- C10, as stated, fails: with the single job
`release-openshift-a-i-release-4.1` migrated (test name `release`), a
release-controller file holding that name followed by
`-openshift-a-i-release-4.1` is rewritten to a text in which the old job name
occurs again, formed by the end of the new name and the text after it.  The
order matters as well: with the jobs for 4.1 and 4.10 both migrated, a file
naming the 4.10 job ends up with the new name of the 4.1 job followed by `0`
when the 4.1 entry is applied first, and with the new name of the 4.10 job
when the 4.10 entry is applied first. -/
theorem dashboard_rewrite_counterexample :
    (run exampleExternals
        (exampleWorld [examplePeriodic "release-openshift-a-i-release-4.1".toList]
          [("release".toList, ⟨some ⟨[]⟩, []⟩)] []
          [⟨"rc/releases.json".toList, "releases.json".toList, false, false,
            some "release-openshift-a-i-release-4.1-openshift-a-i-release-4.1".toList⟩])).2
        = .success (.summary [("release-openshift-a-i-release-4.1".toList,
            "periodic-ci-openshift-release-master-a-4.1-release".toList)] [])
      ∧ (run exampleExternals
        (exampleWorld [examplePeriodic "release-openshift-a-i-release-4.1".toList]
          [("release".toList, ⟨some ⟨[]⟩, []⟩)] []
          [⟨"rc/releases.json".toList, "releases.json".toList, false, false,
            some "release-openshift-a-i-release-4.1-openshift-a-i-release-4.1".toList⟩])).1.getLast?
        = some ⟨.rcConfigDir, "rc/releases.json".toList,
            .raw ("periodic-ci-openshift-release-master-a-4.1-".toList
              ++ "release-openshift-a-i-release-4.1".toList), false⟩
      ∧ "release-openshift-a-i-release-4.1".toList
          <:+: "periodic-ci-openshift-release-master-a-4.1-".toList
              ++ "release-openshift-a-i-release-4.1".toList
      ∧ replaceJobNames
          [("release-openshift-ocp-installer-e2e-aws-4.1".toList,
              "periodic-ci-openshift-release-master-ocp-4.1-e2e-aws".toList),
            ("release-openshift-ocp-installer-e2e-aws-4.10".toList,
              "periodic-ci-openshift-release-master-ocp-4.10-e2e-aws".toList)]
          "name: release-openshift-ocp-installer-e2e-aws-4.10".toList
        = "name: periodic-ci-openshift-release-master-ocp-4.1-e2e-aws0".toList
      ∧ replaceJobNames
          [("release-openshift-ocp-installer-e2e-aws-4.10".toList,
              "periodic-ci-openshift-release-master-ocp-4.10-e2e-aws".toList),
            ("release-openshift-ocp-installer-e2e-aws-4.1".toList,
              "periodic-ci-openshift-release-master-ocp-4.1-e2e-aws".toList)]
          "name: release-openshift-ocp-installer-e2e-aws-4.10".toList
        = "name: periodic-ci-openshift-release-master-ocp-4.10-e2e-aws".toList := by
  refine ⟨by decide, by decide, ?_, by decide, by decide⟩
  exact List.IsSuffix.isInfix (List.suffix_append _ _)

/-- C10, amended: the release-controller file is rewritten by applying the
mapping entries one after another, in whatever order they are visited, each
to the text left by the entries before it.  Every step replaces all the
occurrences of its old job name found from left to right without overlap: the
text before the step is a sequence of pieces separated by the old name, none
of the pieces containing the old name, and the text after the step is the same
pieces separated by the new name.  A text in which no old job name occurs is
left unchanged. -/
theorem replaceJobNames_steps (replacedJobs : GoMap GoString) (raw : GoString)
    (hne : ∀ e, e ∈ replacedJobs → e.1 ≠ []) :
    (∀ done e rest, replacedJobs = done ++ e :: rest →
        ∃ pieces : List GoString, pieces ≠ []
          ∧ replaceJobNames done raw = stringsJoin e.1 pieces
          ∧ replaceJobNames (done ++ [e]) raw = stringsJoin e.2 pieces
          ∧ ∀ p, p ∈ pieces → ¬ e.1 <:+: p)
      ∧ ((∀ e, e ∈ replacedJobs → ¬ e.1 <:+: raw) → replaceJobNames replacedJobs raw = raw) := by
  constructor
  · intro done e rest hsplit
    have he : e.1 ≠ [] := hne e (by rw [hsplit]; simp)
    obtain ⟨pieces, hp, hjoin, hrep, hfree⟩ :=
      stringsReplaceAll_pieces (replaceJobNames done raw) e.1 e.2 he
    exact ⟨pieces, hp, hjoin, by rw [replaceJobNames_append, hrep], hfree⟩
  · intro hfree
    induction replacedJobs generalizing raw with
    | nil => rfl
    | cons e rest ih =>
      have he : e.1 ≠ [] := hne e (by simp)
      have h1 : stringsReplaceAll raw e.1 e.2 = raw :=
        stringsReplaceAll_of_not_infix raw e.1 e.2 he (hfree e (by simp))
      show replaceJobNames rest (stringsReplaceAll raw e.1 e.2) = raw
      rw [h1]
      exact ih raw (fun x hx => hne x (List.mem_cons_of_mem _ hx))
        (fun x hx => hfree x (List.mem_cons_of_mem _ hx))

theorem replaceJobNames_steps_witness :
    ∃ pieces : List GoString, pieces ≠ []
      ∧ "see old-job here".toList = stringsJoin "old-job".toList pieces
      ∧ replaceJobNames [("old-job".toList, "new-job".toList)] "see old-job here".toList
          = stringsJoin "new-job".toList pieces
      ∧ ∀ p, p ∈ pieces → ¬ "old-job".toList <:+: p :=
  (replaceJobNames_steps [("old-job".toList, "new-job".toList)] "see old-job here".toList
    (by decide)).1 [] ("old-job".toList, "new-job".toList) [] rfl

/-! ## Facts about Go maps -/

theorem GoMap.lookup_insert_self {V : Type} (m : GoMap V) (k : GoString) (v : V) :
    GoMap.lookup (GoMap.insert m k v) k = some v := by
  induction m with
  | nil => simp [GoMap.insert, GoMap.lookup]
  | cons e rest ih =>
    obtain ⟨k1, v1⟩ := e
    by_cases h : k1 = k
    · simp [GoMap.insert, GoMap.lookup, h]
    · simp [GoMap.insert, GoMap.lookup, h, ih]

theorem GoMap.lookup_insert_ne {V : Type} (m : GoMap V) (k k2 : GoString) (v : V)
    (hne : k ≠ k2) : GoMap.lookup (GoMap.insert m k v) k2 = GoMap.lookup m k2 := by
  induction m with
  | nil => simp [GoMap.insert, GoMap.lookup, hne]
  | cons e rest ih =>
    obtain ⟨k1, v1⟩ := e
    by_cases h : k1 = k
    · subst h
      simp [GoMap.insert, GoMap.lookup, hne]
    · by_cases h2 : k1 = k2
      · subst h2
        simp [GoMap.insert, GoMap.lookup, h]
      · simp [GoMap.insert, GoMap.lookup, h, h2, ih]

theorem replacementRecord_insert (m : GoMap testsAndBaseImages) (k k2 : GoString)
    (r : testsAndBaseImages) :
    replacementRecord (GoMap.insert m k r) k2 = if k = k2 then r else replacementRecord m k2 := by
  by_cases h : k = k2
  · subst h
    simp [replacementRecord, GoMap.lookup_insert_self]
  · simp [replacementRecord, GoMap.lookup_insert_ne _ _ _ _ h, h]

theorem ensureRecord_replacedJobs (st : LoopState) (filename : GoString) :
    (ensureRecord st filename).replacedJobs = st.replacedJobs := by
  unfold ensureRecord; split <;> rfl

theorem ensureRecord_configlessTests (st : LoopState) (filename : GoString) :
    (ensureRecord st filename).configlessTests = st.configlessTests := by
  unfold ensureRecord; split <;> rfl

theorem replacementRecord_ensureRecord (st : LoopState) (filename f : GoString) :
    replacementRecord (ensureRecord st filename).replacements f
      = replacementRecord st.replacements f := by
  unfold ensureRecord
  by_cases h : (GoMap.lookup st.replacements filename).isNone
  · rw [if_pos h]
    show replacementRecord (GoMap.insert st.replacements filename ⟨[], []⟩) f = _
    rw [replacementRecord_insert]
    by_cases hf : filename = f
    · subst hf
      rw [if_pos rfl]
      simp only [Option.isNone_iff_eq_none] at h
      simp [replacementRecord, h]
    · rw [if_neg hf]
  · rw [if_neg h]

/-! ## Facts about the loop body -/

theorem updateBaseImages_error_kind (newImages ciOpImages : GoMap ImageStreamTagReference)
    (version : GoString) :
    ∀ (replacementImages : GoMap ImageStreamTagReference) (e : RunError),
      (updateBaseImages newImages ciOpImages replacementImages version).2 = some e →
      ∃ name a b, e = .imageConflict name a b := by
  induction newImages with
  | nil => intro r e h; simp [updateBaseImages] at h
  | cons entry rest ih =>
    intro r e h
    obtain ⟨name, img⟩ := entry
    simp only [updateBaseImages] at h
    split at h
    · split at h
      · simp only [Option.some.injEq] at h
        exact ⟨_, _, _, h.symm⟩
      · exact ih _ _ h
    · exact ih _ _ h

theorem reconcileJob_duplicate (ext : Externals) (ciopConfigs : GoMap DataWithInfo)
    (st : LoopState) (periodic : Periodic) (info : jobInfo) (filename : GoString)
    (conf : testConfig)
    (hdup : ∃ step, (step ∈ (replacementRecord st.replacements filename).tests
        ∨ step ∈ (ciopConfiguration ciopConfigs filename).Tests) ∧ step.As = info.As) :
    ∃ st1 e, reconcileJob ext ciopConfigs st periodic info filename conf = (st1, some (.error e))
      ∧ (e = .duplicateTest periodic.Name info.As ∨ ∃ name a b, e = .imageConflict name a b)
      ∧ ((updateBaseImages (ext.rangeOrder _ 185 periodic.Name conf.BaseImages)
            ((ciopConfiguration ciopConfigs filename).BaseImages.getD [])
            (replacementRecord st.replacements filename).baseImages info.Version).2 = none →
          e = .duplicateTest periodic.Name info.As)
      ∧ st1.replacedJobs = st.replacedJobs
      ∧ st1.configlessTests = st.configlessTests
      ∧ ∀ f, (replacementRecord st1.replacements f).tests
          = (replacementRecord st.replacements f).tests := by
  have htests : ∀ (imgs : GoMap ImageStreamTagReference) (f : GoString),
      (replacementRecord (GoMap.insert st.replacements filename
        { replacementRecord st.replacements filename with baseImages := imgs }) f).tests
        = (replacementRecord st.replacements f).tests := by
    intro imgs f
    rw [replacementRecord_insert]
    by_cases hf : filename = f
    · subst hf; simp
    · simp [hf]
  unfold reconcileJob
  simp only []
  split
  · next err herr =>
    refine ⟨_, err, rfl, Or.inr (updateBaseImages_error_kind _ _ _ _ _ herr), ?_, rfl, rfl,
      htests _⟩
    intro hnone
    rw [hnone] at herr
    cases herr
  · next hnone =>
    obtain ⟨step, hmem, hAs⟩ := hdup
    have hfind : ∃ found, List.find? (fun step => decide (step.As = info.As))
        ((replacementRecord (GoMap.insert st.replacements filename
            { replacementRecord st.replacements filename with
              baseImages := (updateBaseImages (ext.rangeOrder _ 185 periodic.Name conf.BaseImages)
                ((ciopConfiguration ciopConfigs filename).BaseImages.getD [])
                (replacementRecord st.replacements filename).baseImages info.Version).1 })
            filename).tests ++ (ciopConfiguration ciopConfigs filename).Tests) = some found
          ∧ found.As = info.As := by
      have hin : step ∈ (replacementRecord (GoMap.insert st.replacements filename
            { replacementRecord st.replacements filename with
              baseImages := (updateBaseImages (ext.rangeOrder _ 185 periodic.Name conf.BaseImages)
                ((ciopConfiguration ciopConfigs filename).BaseImages.getD [])
                (replacementRecord st.replacements filename).baseImages info.Version).1 })
            filename).tests ++ (ciopConfiguration ciopConfigs filename).Tests := by
        rw [htests]
        exact List.mem_append.2 hmem
      cases hf : List.find? (fun step => decide (step.As = info.As))
        ((replacementRecord (GoMap.insert st.replacements filename
            { replacementRecord st.replacements filename with
              baseImages := (updateBaseImages (ext.rangeOrder _ 185 periodic.Name conf.BaseImages)
                ((ciopConfiguration ciopConfigs filename).BaseImages.getD [])
                (replacementRecord st.replacements filename).baseImages info.Version).1 })
            filename).tests ++ (ciopConfiguration ciopConfigs filename).Tests) with
      | none =>
        have := List.find?_eq_none.1 hf step hin
        simp [hAs] at this
      | some found =>
        have := List.find?_some hf
        exact ⟨found, rfl, by simpa using this⟩
    obtain ⟨found, hfound, hfAs⟩ := hfind
    rw [hfound]
    refine ⟨_, _, rfl, Or.inl (by rw [hfAs]), fun _ => by rw [hfAs], rfl, rfl, htests _⟩

/-- C5, as stated, fails: the candidate `release-openshift-ocp-installer-e2e-aws-4.8`
has a generator-table entry and its test name `e2e-aws` is already in the
build configuration on disk, but its base image `base` conflicts with the one
on disk, so the run fails with the base-image conflict error, which names
neither the periodic job nor the test. -/
theorem duplicate_test_counterexample :
    (getJobInfo "release-openshift-ocp-installer-e2e-aws-4.8".toList).1.As = "e2e-aws".toList
      ∧ run exampleExternals
          (exampleWorld [examplePeriodic "release-openshift-ocp-installer-e2e-aws-4.8".toList]
            [("e2e-aws".toList,
              ⟨some ⟨[]⟩, [("base".toList, ⟨[], [], "other".toList, []⟩)]⟩)]
            [("openshift-release-master__ocp-4.8.yaml".toList,
              ⟨{ BaseImages := some [("base".toList,
                    ⟨"ocp".toList, "4.8".toList, "base".toList, []⟩)]
                 Releases := [], Resources := []
                 Tests := [⟨"e2e-aws".toList, some ⟨[]⟩, none⟩]
                 Metadata := ⟨[], [], [], []⟩ }, ⟨[], [], [], []⟩⟩)]
            [])
        = ([], .error (.imageConflict "base".toList
            ⟨"ocp".toList, "4.8".toList, "base".toList, []⟩
            ⟨"ocp".toList, "4.8".toList, "other".toList, []⟩)) := by
  decide

/-- C5, amended: for every migration candidate that runs `ci-operator` and
whose test definition is resolved (generator-table hit, or embedded
configuration with a target and a matching test entry), if its test name
equals the name of a test already in the existing build configuration of its
target file or already accumulated for that file, processing the job stops the
run with an error: the error identifying the periodic job and the test name
when the job's base images merge without conflict, the base-image conflict
error otherwise.  In both cases no test is appended to any record, no
job-name mapping is recorded and the config-less set is unchanged. -/
theorem processPeriodic_duplicate (ext : Externals) (generatorConfig : GeneratorConfig)
    (ciopConfigs : GoMap DataWithInfo) (st : LoopState) (periodic : Periodic)
    (container : Container) (others : List Container) (moreCommand : List GoString)
    (conf : testConfig) (info : jobInfo) (filename : GoString) (envs : GoMap GoString)
    (hcand : (getJobInfo periodic.Name).2 = true)
    (hinfo : info = (getJobInfo periodic.Name).1)
    (hfile : filename = ext.Basename (metadataFromJobInfo info))
    (hspec : periodic.Spec = some (container :: others))
    (hcmd : container.Command = "ci-operator".toList :: moreCommand)
    (henvs : envs = container.Env.foldl (fun m env => GoMap.insert m env.Name env.Value) [])
    (hres : (container.Env.any (fun env => env.Name = "UNRESOLVED_CONFIG".toList) = false
          ∧ GoMap.lookup generatorConfig.Configs info.As = some conf)
        ∨ (container.Env.any (fun env => env.Name = "UNRESOLVED_CONFIG".toList) = true
          ∧ ∃ target unmarshaledConfig steps,
              extractTarget ext periodic.Name envs container.Args [] = some target
              ∧ target ≠ []
              ∧ ext.unmarshalConfig
                  (substituteEnv (ext.rangeOrder GoString 297 periodic.Name envs)
                    ((GoMap.lookup envs "UNRESOLVED_CONFIG".toList).getD []))
                  = some unmarshaledConfig
              ∧ selectSteps unmarshaledConfig.Tests target = some steps
              ∧ conf = ⟨some steps, []⟩))
    (hdup : ∃ step, (step ∈ (replacementRecord st.replacements filename).tests
        ∨ step ∈ (ciopConfiguration ciopConfigs filename).Tests) ∧ step.As = info.As) :
    ∃ st1 e, processPeriodic ext generatorConfig ciopConfigs st periodic
        = (st1, some (.error e))
      ∧ (e = .duplicateTest periodic.Name info.As ∨ ∃ name a b, e = .imageConflict name a b)
      ∧ ((updateBaseImages (ext.rangeOrder _ 185 periodic.Name conf.BaseImages)
            ((ciopConfiguration ciopConfigs filename).BaseImages.getD [])
            (replacementRecord st.replacements filename).baseImages info.Version).2 = none →
          e = .duplicateTest periodic.Name info.As)
      ∧ st1.replacedJobs = st.replacedJobs
      ∧ st1.configlessTests = st.configlessTests
      ∧ ∀ f, (replacementRecord st1.replacements f).tests
          = (replacementRecord st.replacements f).tests := by
  have hdup1 : ∃ step,
      (step ∈ (replacementRecord (ensureRecord st filename).replacements filename).tests
        ∨ step ∈ (ciopConfiguration ciopConfigs filename).Tests) ∧ step.As = info.As := by
    rw [replacementRecord_ensureRecord]; exact hdup
  obtain ⟨st1, e, heq, hkind, hmerge, hjobs, hless, htests⟩ :=
    reconcileJob_duplicate ext ciopConfigs (ensureRecord st filename) periodic info filename
      conf hdup1
  rw [replacementRecord_ensureRecord] at hmerge
  have hcmd2 : ¬ ("ci-operator".toList ≠ "ci-operator".toList) := by simp
  refine ⟨st1, e, ?_, hkind, hmerge, by rw [hjobs, ensureRecord_replacedJobs],
    by rw [hless, ensureRecord_configlessTests],
    fun f => by rw [htests, replacementRecord_ensureRecord]⟩
  rw [← heq]
  unfold processPeriodic
  simp only [hcand, hspec, hcmd, Bool.not_true, Bool.false_eq_true, if_false, hcmd2,
    ← hinfo, ← hfile, ← henvs]
  rcases hres with ⟨hun, hlook⟩ | ⟨hun, target, cfg, steps, htarget, hne, hcfg, hsteps, hconf⟩
  · simp only [hun, Bool.false_eq_true, if_false, hlook]
  · simp only [hun, if_true, htarget, hne, if_false, hcfg, hsteps, hconf]

theorem processPeriodic_duplicate_witness :
    ∃ st1 e, processPeriodic exampleExternals ⟨[("e2e-aws".toList, ⟨some ⟨[]⟩, []⟩)]⟩ []
          ⟨[("openshift-release-master__ocp-4.8.yaml".toList,
              ⟨[⟨"e2e-aws".toList, none, none⟩], []⟩)], [], []⟩
          (examplePeriodic "release-openshift-ocp-installer-e2e-aws-4.8".toList)
        = (st1, some (.error e))
      ∧ e = .duplicateTest "release-openshift-ocp-installer-e2e-aws-4.8".toList "e2e-aws".toList :=
  have h := processPeriodic_duplicate exampleExternals ⟨[("e2e-aws".toList, ⟨some ⟨[]⟩, []⟩)]⟩ []
    ⟨[("openshift-release-master__ocp-4.8.yaml".toList,
        ⟨[⟨"e2e-aws".toList, none, none⟩], []⟩)], [], []⟩
    (examplePeriodic "release-openshift-ocp-installer-e2e-aws-4.8".toList)
    ⟨["ci-operator".toList], [], []⟩ [] [] ⟨some ⟨[]⟩, []⟩
    ⟨"e2e-aws".toList, "ocp".toList, "4.8".toList⟩
    "openshift-release-master__ocp-4.8.yaml".toList []
    (by decide) (by decide) (by decide) rfl rfl rfl (Or.inl ⟨by decide, by decide⟩)
    ⟨⟨"e2e-aws".toList, none, none⟩, Or.inl (by decide), rfl⟩
  match h with
  | ⟨st1, e, heq, _, hmerge, _⟩ => ⟨st1, e, heq, hmerge (by decide)⟩

/-! ## Facts about the phases of `run` -/

theorem runLoop_abort {α σ : Type} (body : σ → α → σ × Option Abort) (P : Abort → Prop)
    (hbody : ∀ st x st1 a, body st x = (st1, some a) → P a) :
    ∀ (xs : List α) (st st1 : σ) (a : Abort), runLoop body st xs = (st1, some a) → P a := by
  intro xs
  induction xs with
  | nil => intro st st1 a h; simp [runLoop] at h
  | cons x xs ih =>
    intro st st1 a h
    simp only [runLoop] at h
    split at h
    · next st2 stop hb =>
      simp only [Prod.mk.injEq, Option.some.injEq] at h
      rw [← h.2]
      exact hbody _ _ _ _ hb
    · next st2 hb => exact ih _ _ _ h

theorem writeConfig_abort (ext : Externals) (w : World) (ciopConfigs : GoMap DataWithInfo)
    (log : List WriteOp) (entry : GoString × testsAndBaseImages) (log1 : List WriteOp)
    (a : Abort) (h : writeConfig ext w ciopConfigs log entry = (log1, some a)) :
    a = .panic ∨ ∃ f, a = .error (.writeConfig f) := by
  unfold writeConfig at h
  simp only [] at h
  split at h
  · simp only [Prod.mk.injEq, Option.some.injEq] at h; exact Or.inl h.2.symm
  · split at h
    · simp only [Prod.mk.injEq, Option.some.injEq] at h; exact Or.inl h.2.symm
    · split at h
      · simp only [Prod.mk.injEq, Option.some.injEq] at h; exact Or.inr ⟨_, h.2.symm⟩
      · simp at h

theorem writeJobConfig_abort (w : World) (replacedJobs : GoMap GoString)
    (log : List WriteOp) (entry : GoString × JobConfig) (log1 : List WriteOp)
    (a : Abort) (h : writeJobConfig w replacedJobs log entry = (log1, some a)) :
    ∃ f, a = .error (.writeJobConfig f) := by
  unfold writeJobConfig at h
  simp only [] at h
  split at h
  · simp only [Prod.mk.injEq, Option.some.injEq] at h; exact ⟨_, h.2.symm⟩
  · simp at h

theorem rewriteRcFile_abort (ext : Externals) (w : World) (replacedJobs : GoMap GoString)
    (log : List WriteOp) (entry : RcDirEntry) (log1 : List WriteOp)
    (a : Abort) (h : rewriteRcFile ext w replacedJobs log entry = (log1, some a)) :
    ∃ c, a = .error (.processRC c) := by
  unfold rewriteRcFile at h
  split at h
  · simp only [Prod.mk.injEq, Option.some.injEq] at h; exact ⟨_, h.2.symm⟩
  · split at h
    · simp at h
    · split at h
      · simp only [Prod.mk.injEq, Option.some.injEq] at h; exact ⟨_, h.2.symm⟩
      · simp only [] at h
        split at h
        · simp only [Prod.mk.injEq, Option.some.injEq] at h; exact ⟨_, h.2.symm⟩
        · simp at h

theorem run_error_after_write (ext : Externals) (w : World) (e : RunError)
    (h : (run ext w).2 = .error e) (hlog : (run ext w).1 ≠ []) :
    (∃ f, e = .writeConfig f) ∨ (∃ f, e = .writeJobConfig f) ∨ (∃ c, e = .processRC c) := by
  generalize hr : run ext w = r at h hlog
  unfold run at hr
  split at hr
  · subst hr; exact absurd rfl hlog
  · split at hr
    · subst hr; exact absurd rfl hlog
    · subst hr; exact absurd rfl hlog
    · split at hr
      · subst hr; exact absurd rfl hlog
      · split at hr
        · subst hr; exact absurd rfl hlog
        · split at hr
          · next log stop hloop =>
            subst hr
            have := runLoop_abort _ (fun a => a = .panic ∨ ∃ f, a = .error (.writeConfig f))
              (fun st x st1 a hb => writeConfig_abort ext w _ st x st1 a hb) _ _ _ _ hloop
            rcases this with hp | ⟨f, hf⟩
            · subst hp; simp [Abort.toOutcome] at h
            · subst hf
              simp only [Abort.toOutcome, Outcome.error.injEq] at h
              exact Or.inl ⟨f, h.symm⟩
          · split at hr
            · next log stop hloop =>
              subst hr
              have := runLoop_abort _ (fun a => ∃ f, a = .error (.writeJobConfig f))
                (fun st x st1 a hb => writeJobConfig_abort w _ st x st1 a hb) _ _ _ _ hloop
              obtain ⟨f, hf⟩ := this
              subst hf
              simp only [Abort.toOutcome, Outcome.error.injEq] at h
              exact Or.inr (Or.inl ⟨f, h.symm⟩)
            · split at hr
              · next log stop hloop =>
                subst hr
                have := runLoop_abort _ (fun a => ∃ c, a = .error (.processRC c))
                  (fun st x st1 a hb => rewriteRcFile_abort ext w _ st x st1 a hb) _ _ _ _ hloop
                obtain ⟨c, hc⟩ := this
                subst hc
                simp only [Abort.toOutcome, Outcome.error.injEq] at h
                exact Or.inr (Or.inr ⟨c, h.symm⟩)
              · subst hr; simp at h

/-- C6, as stated, fails: with one migrated job and a release-controller file
that cannot be read, `run` returns the read error for that file after it has
written the build configuration and the pruned job file. -/
theorem two_phase_counterexample :
    (run exampleExternals
        (exampleWorld [examplePeriodic "release-openshift-ocp-installer-e2e-aws-4.8".toList]
          [("e2e-aws".toList, ⟨some ⟨[]⟩, []⟩)] []
          [⟨"rc/releases.json".toList, "releases.json".toList, false, false, none⟩])).2
        = .error (.processRC (.readFile "releases.json".toList))
      ∧ (run exampleExternals
        (exampleWorld [examplePeriodic "release-openshift-ocp-installer-e2e-aws-4.8".toList]
          [("e2e-aws".toList, ⟨some ⟨[]⟩, []⟩)] []
          [⟨"rc/releases.json".toList, "releases.json".toList, false, false, none⟩])).1.map
          (fun op => (op.store, op.name, op.failed))
        = [(.ciopConfigDir, "openshift-release-master__ocp-4.8.yaml".toList, false),
           (.jobDir, "release-periodics.yaml".toList, false)] := by
  decide

/-- C6, amended: whenever `run` returns an error from loading the job
definitions, the generator table or the build configurations, or from the
reconciliation loop (missing target, undecodable embedded configuration,
missing matching test entry, base-image conflict, duplicate test name), no
write to any of the three stores has been performed. -/
theorem run_error_before_writes (ext : Externals) (w : World) (e : RunError)
    (h : (run ext w).2 = .error e)
    (hkind : (∃ c, e = .loadPeriodics c) ∨ e = .readConfigFile ∨ e = .unmarshalConfigFile
      ∨ e = .loadCiopConfigs ∨ (∃ job, e = .noTarget job)
      ∨ (∃ job, e = .unmarshalUnresolved job) ∨ (∃ job, e = .noMultiStage job)
      ∨ (∃ name a b, e = .imageConflict name a b) ∨ (∃ job test, e = .duplicateTest job test)) :
    (run ext w).1 = [] := by
  by_contra hlog
  rcases run_error_after_write ext w e h hlog with ⟨f, hf⟩ | ⟨f, hf⟩ | ⟨c, hc⟩
  · subst hf; simp at hkind
  · subst hf; simp at hkind
  · subst hc; simp at hkind

theorem run_error_before_writes_witness :
    (run exampleExternals
      (exampleWorld [examplePeriodic "release-openshift-ocp-installer-e2e-aws-4.8".toList]
        [("e2e-aws".toList, ⟨some ⟨[]⟩, []⟩)]
        [("openshift-release-master__ocp-4.8.yaml".toList,
          ⟨{ BaseImages := none, Releases := [], Resources := []
             Tests := [⟨"e2e-aws".toList, some ⟨[]⟩, none⟩]
             Metadata := ⟨[], [], [], []⟩ }, ⟨[], [], [], []⟩⟩)]
        [])).1 = [] :=
  run_error_before_writes exampleExternals _
    (.duplicateTest "release-openshift-ocp-installer-e2e-aws-4.8".toList "e2e-aws".toList)
    (by decide)
    (Or.inr (Or.inr (Or.inr (Or.inr (Or.inr (Or.inr (Or.inr (Or.inr ⟨_, _, rfl⟩))))))))

/-! ## Which build configurations are written -/

theorem writeConfig_names (ext : Externals) (w : World) (ciopConfigs : GoMap DataWithInfo)
    (log : List WriteOp) (entry : GoString × testsAndBaseImages) :
    ((writeConfig ext w ciopConfigs log entry).1 = log
        ∧ (writeConfig ext w ciopConfigs log entry).2 = some .panic)
      ∨ (((writeConfig ext w ciopConfigs log entry).1.filter
            (fun op => op.store = .ciopConfigDir)).map (fun op => op.name)
          = (log.filter (fun op => op.store = .ciopConfigDir)).map (fun op => op.name)
              ++ [entry.1]) := by
  unfold writeConfig
  simp only []
  split
  · exact Or.inl ⟨rfl, rfl⟩
  · split
    · exact Or.inl ⟨rfl, rfl⟩
    · right
      split <;> simp [List.filter_append]

theorem runLoop_writeConfig_names (ext : Externals) (w : World)
    (ciopConfigs : GoMap DataWithInfo) :
    ∀ (xs : GoMap testsAndBaseImages) (log : List WriteOp),
      ∃ done, done <+: xs.map Prod.fst
        ∧ ((runLoop (writeConfig ext w ciopConfigs) log xs).1.filter
              (fun op => op.store = .ciopConfigDir)).map (fun op => op.name)
            = (log.filter (fun op => op.store = .ciopConfigDir)).map (fun op => op.name) ++ done
        ∧ ((runLoop (writeConfig ext w ciopConfigs) log xs).2 = none →
            done = xs.map Prod.fst) := by
  intro xs
  induction xs with
  | nil => intro log; exact ⟨[], by simp, by simp [runLoop], fun _ => rfl⟩
  | cons x xs ih =>
    intro log
    simp only [runLoop]
    rcases writeConfig_names ext w ciopConfigs log x with ⟨h1, h2⟩ | h
    · split
      · next st1 stop hb =>
        rw [hb] at h1
        simp only at h1
        subst h1
        exact ⟨[], List.nil_prefix, by simp, fun hn => by simp at hn⟩
      · next st1 hb => rw [hb] at h2; simp at h2
    · split
      · next st1 stop hb =>
        rw [hb] at h
        simp only at h
        refine ⟨[x.1], by simp [List.prefix_cons_inj], h, fun hn => by simp at hn⟩
      · next st1 hb =>
        rw [hb] at h
        simp only at h
        obtain ⟨done, hpre, hnames, hall⟩ := ih st1
        refine ⟨x.1 :: done, ?_, ?_, ?_⟩
        · simpa [List.prefix_cons_inj] using hpre
        · rw [hnames, h]; simp
        · intro hn; rw [hall hn]; rfl

theorem runLoop_writeJobConfig_names (w : World) (replacedJobs : GoMap GoString) :
    ∀ (xs : GoMap JobConfig) (log : List WriteOp),
      (runLoop (writeJobConfig w replacedJobs) log xs).1.filter
          (fun op => op.store = .ciopConfigDir)
        = log.filter (fun op => op.store = .ciopConfigDir) := by
  intro xs
  induction xs with
  | nil => intro log; rfl
  | cons x xs ih =>
    intro log
    simp only [runLoop]
    split
    · next st1 stop hb =>
      unfold writeJobConfig at hb
      simp only [] at hb
      split at hb
      · simp only [Prod.mk.injEq] at hb
        rw [← hb.1]; simp [List.filter_append]
      · simp at hb
    · next st1 hb =>
      rw [ih]
      unfold writeJobConfig at hb
      simp only [] at hb
      split at hb
      · simp at hb
      · simp only [Prod.mk.injEq] at hb
        rw [← hb.1]; simp [List.filter_append]

theorem rewriteRcFile_names (ext : Externals) (w : World) (replacedJobs : GoMap GoString)
    (log : List WriteOp) (entry : RcDirEntry) :
    (rewriteRcFile ext w replacedJobs log entry).1.filter (fun op => op.store = .ciopConfigDir)
      = log.filter (fun op => op.store = .ciopConfigDir) := by
  unfold rewriteRcFile
  split
  · rfl
  · split
    · rfl
    · split
      · rfl
      · simp only []
        split <;> simp [List.filter_append]

theorem runLoop_rewriteRcFile_names (ext : Externals) (w : World)
    (replacedJobs : GoMap GoString) :
    ∀ (xs : List RcDirEntry) (log : List WriteOp),
      (runLoop (rewriteRcFile ext w replacedJobs) log xs).1.filter
          (fun op => op.store = .ciopConfigDir)
        = log.filter (fun op => op.store = .ciopConfigDir) := by
  intro xs
  induction xs with
  | nil => intro log; rfl
  | cons x xs ih =>
    intro log
    simp only [runLoop]
    have hstep := rewriteRcFile_names ext w replacedJobs log x
    split
    · next st1 stop hb => rw [hb] at hstep; exact hstep
    · next st1 hb => rw [hb] at hstep; rw [ih]; exact hstep

/-- C8, as stated, fails: the only job routed to
`openshift-release-master__ocp-4.8.yaml` has no generator-table entry, nothing
is accumulated for that file, and still the file, which did not exist, is
created with the synthesized default configuration. -/
theorem config_write_counterexample :
    run exampleExternals
        (exampleWorld [examplePeriodic "release-openshift-ocp-installer-e2e-aws-4.8".toList]
          [] [] [])
      = ([⟨.ciopConfigDir, "openshift-release-master__ocp-4.8.yaml".toList,
            .config
              { BaseImages := some [("base".toList,
                  ⟨"ocp".toList, "4.8".toList, "base".toList, []⟩)]
                Releases := [("latest".toList,
                  some ⟨"ocp".toList, "nightly".toList, "4.8".toList⟩)]
                Resources := [("*".toList,
                  [("cpu".toList, "100m".toList), ("memory".toList, "200Mi".toList)])]
                Tests := []
                Metadata := ⟨"openshift".toList, "release".toList, "master".toList,
                  "ocp-4.8".toList⟩ }, false⟩,
          ⟨.jobDir, "release-periodics.yaml".toList,
            .jobConfig
              ⟨[examplePeriodic "release-openshift-ocp-installer-e2e-aws-4.8".toList]⟩,
            false⟩],
        .success (.summary [] ["e2e-aws".toList])) := by
  decide

/-! ## The accumulators only grow -/

theorem GoMap.lookup_insert_ne_none {V : Type} (m : GoMap V) (k k2 : GoString) (v : V)
    (h : GoMap.lookup m k2 ≠ none) : GoMap.lookup (GoMap.insert m k v) k2 ≠ none := by
  by_cases hk : k = k2
  · subst hk; rw [GoMap.lookup_insert_self]; simp
  · rw [GoMap.lookup_insert_ne _ _ _ _ hk]; exact h

theorem mem_setInsert (s : List GoString) (x t : GoString) :
    t ∈ setInsert s x ↔ t = x ∨ t ∈ s := by
  unfold setInsert
  split
  · next h =>
    constructor
    · exact Or.inr
    · rintro (h1 | h1)
      · rw [h1]; exact h
      · exact h1
  · simp only [List.mem_append, List.mem_singleton]; tauto

theorem LoopState.GrowsTo.refl (a : LoopState) : a.GrowsTo a :=
  ⟨fun _ h => h, fun _ h => h, fun _ h => h⟩

theorem LoopState.GrowsTo.trans {a b c : LoopState} (h1 : a.GrowsTo b) (h2 : b.GrowsTo c) :
    a.GrowsTo c :=
  ⟨fun k h => h2.1 k (h1.1 k h), fun t h => h2.2.1 t (h1.2.1 t h),
    fun f h => h2.2.2 f (h1.2.2 f h)⟩

theorem ensureRecord_lookup (st : LoopState) (filename : GoString) :
    GoMap.lookup (ensureRecord st filename).replacements filename ≠ none := by
  unfold ensureRecord
  split
  · show GoMap.lookup (GoMap.insert st.replacements filename _) filename ≠ none
    rw [GoMap.lookup_insert_self]; simp
  · next h => simpa using h

theorem ensureRecord_growsTo (st : LoopState) (filename : GoString) :
    st.GrowsTo (ensureRecord st filename) := by
  refine ⟨fun k h => ?_, fun t h => ?_, fun f h => ?_⟩
  · rw [ensureRecord_replacedJobs]; exact h
  · rw [ensureRecord_configlessTests]; exact h
  · unfold ensureRecord
    split
    · exact GoMap.lookup_insert_ne_none _ _ _ _ h
    · exact h

theorem reconcileJob_growsTo (ext : Externals) (ciopConfigs : GoMap DataWithInfo)
    (st : LoopState) (periodic : Periodic) (info : jobInfo) (filename : GoString)
    (conf : testConfig) :
    st.GrowsTo (reconcileJob ext ciopConfigs st periodic info filename conf).1
      ∧ ((reconcileJob ext ciopConfigs st periodic info filename conf).2 = none →
          GoMap.lookup (reconcileJob ext ciopConfigs st periodic info filename conf).1.replacedJobs
            periodic.Name ≠ none) := by
  unfold reconcileJob
  simp only []
  split
  · exact ⟨⟨fun _ h => h, fun _ h => h, fun f h => GoMap.lookup_insert_ne_none _ _ _ _ h⟩,
      fun h => by simp at h⟩
  · split
    · exact ⟨⟨fun _ h => h, fun _ h => h, fun f h => GoMap.lookup_insert_ne_none _ _ _ _ h⟩,
        fun h => by simp at h⟩
    · refine ⟨⟨fun k h => GoMap.lookup_insert_ne_none _ _ _ _ h, fun _ h => h,
        fun f h => GoMap.lookup_insert_ne_none _ _ _ _
          (GoMap.lookup_insert_ne_none _ _ _ _ h)⟩, fun _ => ?_⟩
      simp only [GoMap.lookup_insert_self]
      simp

theorem processPeriodic_growsTo (ext : Externals) (generatorConfig : GeneratorConfig)
    (ciopConfigs : GoMap DataWithInfo) (st : LoopState) (periodic : Periodic) :
    st.GrowsTo (processPeriodic ext generatorConfig ciopConfigs st periodic).1 := by
  have hrec : ∀ conf, st.GrowsTo (reconcileJob ext ciopConfigs
      (ensureRecord st (ext.Basename (metadataFromJobInfo (getJobInfo periodic.Name).1)))
      periodic (getJobInfo periodic.Name).1
      (ext.Basename (metadataFromJobInfo (getJobInfo periodic.Name).1)) conf).1 :=
    fun conf => (ensureRecord_growsTo st _).trans (reconcileJob_growsTo _ _ _ _ _ _ _).1
  have hens := ensureRecord_growsTo st
    (ext.Basename (metadataFromJobInfo (getJobInfo periodic.Name).1))
  unfold processPeriodic
  simp only []
  split
  · exact LoopState.GrowsTo.refl st
  · split
    · exact LoopState.GrowsTo.refl st
    · exact LoopState.GrowsTo.refl st
    · split
      · exact LoopState.GrowsTo.refl st
      · split
        · exact LoopState.GrowsTo.refl st
        · split
          · split
            · exact hens
            · split
              · exact hens
              · split
                · exact hens
                · split
                  · exact hens
                  · exact hrec _
          · split
            · refine ⟨fun k h => ?_, fun t h => ?_, fun f h => ?_⟩
              · show GoMap.lookup (ensureRecord st _).replacedJobs k ≠ none
                rw [ensureRecord_replacedJobs]; exact h
              · show t ∈ setInsert (ensureRecord st _).configlessTests _
                rw [mem_setInsert, ensureRecord_configlessTests]; exact Or.inr h
              · exact hens.2.2 f h
            · exact hrec _

theorem runLoop_growsTo {α : Type} (body : LoopState → α → LoopState × Option Abort)
    (hbody : ∀ (st : LoopState) (x : α), st.GrowsTo (body st x).1) :
    ∀ (xs : List α) (st : LoopState), st.GrowsTo (runLoop body st xs).1 := by
  intro xs
  induction xs with
  | nil => intro st; exact LoopState.GrowsTo.refl st
  | cons x xs ih =>
    intro st
    simp only [runLoop]
    have h := hbody st x
    split
    · next st1 stop hb => rw [hb] at h; exact h
    · next st1 hb => rw [hb] at h; exact h.trans (ih st1)

theorem runLoop_ok_mem {α : Type} (body : LoopState → α → LoopState × Option Abort)
    (hbody : ∀ (st : LoopState) (x : α), st.GrowsTo (body st x).1) :
    ∀ (xs : List α) (st st1 : LoopState), runLoop body st xs = (st1, none) →
      ∀ x, x ∈ xs → ∃ sa sb, body sa x = (sb, none) ∧ sb.GrowsTo st1 := by
  intro xs
  induction xs with
  | nil => intro st st1 _ x hx; simp at hx
  | cons y ys ih =>
    intro st st1 h x hx
    simp only [runLoop] at h
    split at h
    · simp at h
    · next st2 hb =>
      rcases List.mem_cons.1 hx with hxy | hxy
      · subst hxy
        refine ⟨st, st2, hb, ?_⟩
        have := runLoop_growsTo body hbody ys st2
        rw [h] at this
        exact this
      · exact ih st2 st1 h x hxy

theorem runLoop_all_ok {α : Type} (body : LoopState → α → LoopState × Option Abort)
    (I : LoopState → Prop) :
    ∀ (xs : List α) (st : LoopState),
      (∀ x, x ∈ xs → ∀ s, I s → (body s x).2 = none ∧ I (body s x).1) → I st →
      (runLoop body st xs).2 = none ∧ I (runLoop body st xs).1 := by
  intro xs
  induction xs with
  | nil => intro st _ hI; exact ⟨rfl, hI⟩
  | cons y ys ih =>
    intro st hall hI
    have hy := hall y (by simp) st hI
    simp only [runLoop]
    split
    · next st1 stop hb => rw [hb] at hy; simp at hy
    · next st1 hb =>
      rw [hb] at hy
      exact ih st1 (fun x hx => hall x (List.mem_cons_of_mem _ hx)) hy.2

theorem processPeriodic_ok_cases (ext : Externals) (generatorConfig : GeneratorConfig)
    (ciopConfigs : GoMap DataWithInfo) (st : LoopState) (periodic : Periodic)
    (st1 : LoopState)
    (h : processPeriodic ext generatorConfig ciopConfigs st periodic = (st1, none)) :
    GoMap.lookup st1.replacedJobs periodic.Name ≠ none
      ∨ ∀ (ext2 : Externals) (ciop2 : GoMap DataWithInfo) (st2 : LoopState),
          (processPeriodic ext2 generatorConfig ciop2 st2 periodic).2 = none
            ∧ (processPeriodic ext2 generatorConfig ciop2 st2 periodic).1.replacedJobs
                = st2.replacedJobs
            ∧ ∀ t, t ∈ (processPeriodic ext2 generatorConfig ciop2 st2 periodic).1.configlessTests →
                t ∈ st2.configlessTests ∨ t ∈ st1.configlessTests := by
  have hleft : ∀ conf, reconcileJob ext ciopConfigs
      (ensureRecord st (ext.Basename (metadataFromJobInfo (getJobInfo periodic.Name).1)))
      periodic (getJobInfo periodic.Name).1
      (ext.Basename (metadataFromJobInfo (getJobInfo periodic.Name).1)) conf = (st1, none) →
      GoMap.lookup st1.replacedJobs periodic.Name ≠ none := by
    intro conf hr
    have := (reconcileJob_growsTo ext ciopConfigs
      (ensureRecord st (ext.Basename (metadataFromJobInfo (getJobInfo periodic.Name).1)))
      periodic (getJobInfo periodic.Name).1
      (ext.Basename (metadataFromJobInfo (getJobInfo periodic.Name).1)) conf).2
    rw [hr] at this
    exact this rfl
  have hcmd2 : ¬ ("ci-operator".toList ≠ "ci-operator".toList) := by simp
  by_cases hc : (getJobInfo periodic.Name).2 = true
  swap
  · right
    intro ext2 ciop2 st2
    simp only [Bool.not_eq_true] at hc
    simp only [processPeriodic, hc, Bool.not_false, if_true, true_and]
    exact fun t ht => Or.inl ht
  cases hs : periodic.Spec with
  | none =>
    unfold processPeriodic at h
    simp [hc, hs] at h
  | some containers =>
    cases containers with
    | nil =>
      unfold processPeriodic at h
      simp [hc, hs] at h
    | cons container others =>
      cases hcmd : container.Command with
      | nil =>
        unfold processPeriodic at h
        simp [hc, hs, hcmd] at h
      | cons command more =>
        by_cases hci : command = "ci-operator".toList
        swap
        · right
          intro ext2 ciop2 st2
          have hci2 : command ≠ "ci-operator".toList := hci
          unfold processPeriodic
          simp only [hc, hs, hcmd, hci2, Bool.not_true, Bool.false_eq_true, if_false, if_true,
            ne_eq, not_false_eq_true, true_and]
          intro t ht
          exact Or.inl ht
        subst hci
        unfold processPeriodic at h
        simp only [hc, hs, hcmd, hcmd2, Bool.not_true, Bool.false_eq_true, if_false] at h
        cases hun : container.Env.any (fun env => decide (env.Name = "UNRESOLVED_CONFIG".toList)) with
        | true =>
          left
          simp only [hun, if_true] at h
          split at h
          · simp at h
          · split at h
            · simp at h
            · split at h
              · simp at h
              · split at h
                · simp at h
                · exact hleft _ h
        | false =>
          simp only [hun, Bool.false_eq_true, if_false] at h
          cases hl : GoMap.lookup generatorConfig.Configs (getJobInfo periodic.Name).1.As with
          | some conf =>
            left
            simp only [hl] at h
            exact hleft _ h
          | none =>
            right
            simp only [hl, Prod.mk.injEq, and_true] at h
            intro ext2 ciop2 st2
            unfold processPeriodic
            simp only [hc, hs, hcmd, hcmd2, Bool.not_true, Bool.false_eq_true, if_false, hun, hl,
              true_and]
            refine ⟨ensureRecord_replacedJobs _ _, ?_⟩
            intro t ht
            rw [mem_setInsert, ensureRecord_configlessTests] at ht
            rcases ht with ht | ht
            · right
              rw [← h, ht]
              show _ ∈ setInsert _ _
              rw [mem_setInsert]
              exact Or.inl rfl
            · exact Or.inl ht

theorem reconcile_second_run (ext ext2 : Externals) (generatorConfig : GeneratorConfig)
    (ciopConfigs ciop2 : GoMap DataWithInfo) (jobs jobs2 : GoMap JobConfig) (st : LoopState)
    (h1 : reconcile ext generatorConfig ciopConfigs jobs = (st, none))
    (hkept : ∀ file2, file2 ∈ jobs2 → ∀ p, p ∈ file2.2.Periodics →
      GoMap.lookup st.replacedJobs p.Name = none ∧ ∃ file, file ∈ jobs ∧ p ∈ file.2.Periodics) :
    (reconcile ext2 generatorConfig ciop2 jobs2).2 = none
      ∧ (reconcile ext2 generatorConfig ciop2 jobs2).1.replacedJobs = []
      ∧ ∀ t, t ∈ (reconcile ext2 generatorConfig ciop2 jobs2).1.configlessTests →
          t ∈ st.configlessTests := by
  have hskip : ∀ file2, file2 ∈ jobs2 → ∀ p, p ∈ file2.2.Periodics →
      ∀ (s : LoopState),
        (processPeriodic ext2 generatorConfig ciop2 s p).2 = none
          ∧ (processPeriodic ext2 generatorConfig ciop2 s p).1.replacedJobs = s.replacedJobs
          ∧ ∀ t, t ∈ (processPeriodic ext2 generatorConfig ciop2 s p).1.configlessTests →
              t ∈ s.configlessTests ∨ t ∈ st.configlessTests := by
    intro file2 hfile2 p hp s
    obtain ⟨hnone, file, hfile, hpf⟩ := hkept file2 hfile2 p hp
    obtain ⟨sa, sb, hinner, hgrow⟩ := runLoop_ok_mem
      (fun st (file : GoString × JobConfig) =>
        runLoop (processPeriodic ext generatorConfig ciopConfigs) st file.2.Periodics)
      (fun st file => runLoop_growsTo _ (processPeriodic_growsTo ext generatorConfig ciopConfigs)
        file.2.Periodics st)
      jobs ⟨[], [], []⟩ st h1 file hfile
    obtain ⟨sc, sd, hstep, hgrow2⟩ := runLoop_ok_mem
      (processPeriodic ext generatorConfig ciopConfigs)
      (processPeriodic_growsTo ext generatorConfig ciopConfigs)
      file.2.Periodics sa sb hinner p hpf
    have hsd : sd.GrowsTo st := hgrow2.trans hgrow
    rcases processPeriodic_ok_cases ext generatorConfig ciopConfigs sc p sd hstep with hl | hr
    · exact absurd hnone (hsd.1 _ hl)
    · obtain ⟨h2, h3, h4⟩ := hr ext2 ciop2 s
      refine ⟨h2, h3, fun t ht => ?_⟩
      rcases h4 t ht with h5 | h5
      · exact Or.inl h5
      · exact Or.inr (hsd.2.1 t h5)
  have houter := runLoop_all_ok
    (fun st (file : GoString × JobConfig) =>
      runLoop (processPeriodic ext2 generatorConfig ciop2) st file.2.Periodics)
    (fun s => s.replacedJobs = [] ∧ ∀ t, t ∈ s.configlessTests → t ∈ st.configlessTests)
    jobs2 ⟨[], [], []⟩
    (fun file2 hfile2 s hs =>
      runLoop_all_ok (processPeriodic ext2 generatorConfig ciop2)
        (fun s => s.replacedJobs = [] ∧ ∀ t, t ∈ s.configlessTests → t ∈ st.configlessTests)
        file2.2.Periodics s
        (fun p hp s2 hs2 => by
          obtain ⟨h2, h3, h4⟩ := hskip file2 hfile2 p hp s2
          refine ⟨h2, by rw [h3]; exact hs2.1, fun t ht => ?_⟩
          rcases h4 t ht with h5 | h5
          · exact hs2.2 t h5
          · exact h5)
        hs)
    ⟨rfl, fun t ht => by simp at ht⟩
  exact ⟨houter.1, houter.2.1, houter.2.2⟩

/-- C7, as stated, fails: with an empty generator table the candidate
`release-openshift-ocp-installer-e2e-aws-4.8` is recorded as config-less and
kept in the rewritten job file, `run` succeeds, the kept job is still a
migration candidate, and a second run over the output records the config-less
test again and does not report that no jobs were detected. -/
theorem idempotence_counterexample :
    (run exampleExternals
        (exampleWorld [examplePeriodic "release-openshift-ocp-installer-e2e-aws-4.8".toList]
          [] [] [])).2 = .success (.summary [] ["e2e-aws".toList])
      ∧ (run exampleExternals
        (exampleWorld [examplePeriodic "release-openshift-ocp-installer-e2e-aws-4.8".toList]
          [] [] [])).1.getLast?
        = some ⟨.jobDir, "release-periodics.yaml".toList,
            .jobConfig
              ⟨[examplePeriodic "release-openshift-ocp-installer-e2e-aws-4.8".toList]⟩, false⟩
      ∧ (getJobInfo "release-openshift-ocp-installer-e2e-aws-4.8".toList).2 = true
      ∧ (run exampleExternals
        (exampleWorld [examplePeriodic "release-openshift-ocp-installer-e2e-aws-4.8".toList]
          []
          [("openshift-release-master__ocp-4.8.yaml".toList,
            ⟨{ BaseImages := some [("base".toList,
                  ⟨"ocp".toList, "4.8".toList, "base".toList, []⟩)]
               Releases := [("latest".toList,
                  some ⟨"ocp".toList, "nightly".toList, "4.8".toList⟩)]
               Resources := [("*".toList,
                  [("cpu".toList, "100m".toList), ("memory".toList, "200Mi".toList)])]
               Tests := []
               Metadata := ⟨"openshift".toList, "release".toList, "master".toList,
                  "ocp-4.8".toList⟩ },
              ⟨"openshift".toList, "release".toList, "master".toList, "ocp-4.8".toList⟩⟩)]
          [])).2 = .success (.summary [] ["e2e-aws".toList]) := by
  decide

/-- C7, amended: for every input on which the reconciliation of a run
succeeds, none of the periodic jobs left in the rewritten job-definition files
has its name in the job-name mapping; each of them is a job the loop passes
over (not a candidate, not running `ci-operator`, or without generator-table
entry), so a second run over these files with the same generator table gets
through the loop without error and with an empty job-name mapping, records
only config-less tests the first run recorded too, and reports that no jobs
were detected exactly when it records no config-less test. -/
theorem second_run_migrates_nothing (ext ext2 : Externals) (generatorConfig : GeneratorConfig)
    (ciopConfigs ciop2 : GoMap DataWithInfo) (jobs : GoMap JobConfig) (st : LoopState)
    (hperm : ext.RangesArePermutations) (hperm2 : ext2.RangesArePermutations)
    (h1 : reconcile ext generatorConfig ciopConfigs (ext.rangeOrder _ 254 [] jobs) = (st, none)) :
    (∀ file, file ∈ prunedJobs st.replacedJobs jobs → ∀ p, p ∈ file.2.Periodics →
        GoMap.lookup st.replacedJobs p.Name = none)
      ∧ (reconcile ext2 generatorConfig ciop2
          (ext2.rangeOrder _ 254 [] (prunedJobs st.replacedJobs jobs))).2 = none
      ∧ (reconcile ext2 generatorConfig ciop2
          (ext2.rangeOrder _ 254 [] (prunedJobs st.replacedJobs jobs))).1.replacedJobs = []
      ∧ (∀ t, t ∈ (reconcile ext2 generatorConfig ciop2
            (ext2.rangeOrder _ 254 [] (prunedJobs st.replacedJobs jobs))).1.configlessTests →
          t ∈ st.configlessTests)
      ∧ (makeReport (reconcile ext2 generatorConfig ciop2
            (ext2.rangeOrder _ 254 [] (prunedJobs st.replacedJobs jobs))).1 = .noneDetected
          ↔ (reconcile ext2 generatorConfig ciop2
            (ext2.rangeOrder _ 254 [] (prunedJobs st.replacedJobs jobs))).1.configlessTests
              = []) := by
  have hpruned : ∀ file2, file2 ∈ prunedJobs st.replacedJobs jobs → ∀ p, p ∈ file2.2.Periodics →
      GoMap.lookup st.replacedJobs p.Name = none ∧ ∃ file, file ∈ jobs ∧ p ∈ file.2.Periodics := by
    intro file2 hfile2 p hp
    simp only [prunedJobs, List.mem_map] at hfile2
    obtain ⟨file, hfile, hf2⟩ := hfile2
    subst hf2
    simp only [prunePeriodics_eq_filter, List.mem_filter, Option.isNone_iff_eq_none] at hp
    exact ⟨hp.2, file, hfile, hp.1⟩
  have hkept : ∀ file2, file2 ∈ ext2.rangeOrder _ 254 [] (prunedJobs st.replacedJobs jobs) →
      ∀ p, p ∈ file2.2.Periodics →
      GoMap.lookup st.replacedJobs p.Name = none
        ∧ ∃ file, file ∈ ext.rangeOrder _ 254 [] jobs ∧ p ∈ file.2.Periodics := by
    intro file2 hfile2 p hp
    obtain ⟨hnone, file, hfile, hpf⟩ :=
      hpruned file2 ((hperm2 _ 254 [] _).mem_iff.1 hfile2) p hp
    exact ⟨hnone, file, (hperm _ 254 [] _).mem_iff.2 hfile, hpf⟩
  obtain ⟨h2, h3, h4⟩ := reconcile_second_run ext ext2 generatorConfig ciopConfigs ciop2
    (ext.rangeOrder _ 254 [] jobs) (ext2.rangeOrder _ 254 [] (prunedJobs st.replacedJobs jobs))
    st h1 hkept
  refine ⟨fun file hfile p hp => (hpruned file hfile p hp).1, h2, h3, h4, ?_⟩
  unfold makeReport
  rw [h3]
  constructor
  · intro h
    split at h
    · next hcond => exact List.length_eq_zero.1 hcond.2
    · cases h
  · intro h
    rw [h]
    simp

theorem second_run_migrates_nothing_witness :
    (reconcile exampleExternals ⟨[("e2e-aws".toList, ⟨some ⟨[]⟩, []⟩)]⟩ []
        (prunedJobs
          [("release-openshift-ocp-installer-e2e-aws-4.8".toList,
            "periodic-ci-openshift-release-master-ocp-4.8-e2e-aws".toList)]
          [("release-periodics.yaml".toList,
            ⟨[examplePeriodic "release-openshift-ocp-installer-e2e-aws-4.8".toList,
              examplePeriodic "some-other-job".toList]⟩)])).1.replacedJobs = [] :=
  (second_run_migrates_nothing exampleExternals exampleExternals
    ⟨[("e2e-aws".toList, ⟨some ⟨[]⟩, []⟩)]⟩ [] []
    [("release-periodics.yaml".toList,
      ⟨[examplePeriodic "release-openshift-ocp-installer-e2e-aws-4.8".toList,
        examplePeriodic "some-other-job".toList]⟩)]
    ⟨[("openshift-release-master__ocp-4.8.yaml".toList,
        ⟨[⟨"e2e-aws".toList, some ⟨[]⟩, some "0 6 * * *".toList⟩], []⟩)],
      [("release-openshift-ocp-installer-e2e-aws-4.8".toList,
        "periodic-ci-openshift-release-master-ocp-4.8-e2e-aws".toList)], []⟩
    (fun _ _ _ _ => List.Perm.refl _) (fun _ _ _ _ => List.Perm.refl _) (by decide)).2.2.1

theorem GoMap.mem_keys_of_lookup {V : Type} (m : GoMap V) (k : GoString)
    (h : GoMap.lookup m k ≠ none) : k ∈ m.map Prod.fst := by
  induction m with
  | nil => simp [GoMap.lookup] at h
  | cons e rest ih =>
    obtain ⟨k1, v1⟩ := e
    by_cases hk : k1 = k
    · subst hk
      simp only [List.map_cons]
      exact List.mem_cons_self _ _
    · simp only [GoMap.lookup, hk, if_false] at h
      simp only [List.map_cons, List.mem_cons]
      exact Or.inr (ih h)

theorem processPeriodic_record (ext : Externals) (generatorConfig : GeneratorConfig)
    (ciopConfigs : GoMap DataWithInfo) (st : LoopState) (periodic : Periodic)
    (container : Container) (others : List Container) (more : List GoString)
    (hc : (getJobInfo periodic.Name).2 = true)
    (hs : periodic.Spec = some (container :: others))
    (hcmd : container.Command = "ci-operator".toList :: more) :
    GoMap.lookup (processPeriodic ext generatorConfig ciopConfigs st periodic).1.replacements
      (ext.Basename (metadataFromJobInfo (getJobInfo periodic.Name).1)) ≠ none := by
  have hens := ensureRecord_lookup st
    (ext.Basename (metadataFromJobInfo (getJobInfo periodic.Name).1))
  have hrec : ∀ conf, GoMap.lookup (reconcileJob ext ciopConfigs
      (ensureRecord st (ext.Basename (metadataFromJobInfo (getJobInfo periodic.Name).1)))
      periodic (getJobInfo periodic.Name).1
      (ext.Basename (metadataFromJobInfo (getJobInfo periodic.Name).1)) conf).1.replacements
      (ext.Basename (metadataFromJobInfo (getJobInfo periodic.Name).1)) ≠ none :=
    fun conf => (reconcileJob_growsTo _ _ _ _ _ _ _).1.2.2 _ hens
  have hcmd2 : ¬ ("ci-operator".toList ≠ "ci-operator".toList) := by simp
  unfold processPeriodic
  simp only [hc, hs, hcmd, hcmd2, Bool.not_true, Bool.false_eq_true, if_false]
  split
  · split
    · exact hens
    · split
      · exact hens
      · split
        · exact hens
        · split
          · exact hens
          · exact hrec _
  · split
    · exact hens
    · exact hrec _

theorem reconcile_ok_mem (ext : Externals) (generatorConfig : GeneratorConfig)
    (ciopConfigs : GoMap DataWithInfo) (jobs : GoMap JobConfig) (st : LoopState)
    (h : reconcile ext generatorConfig ciopConfigs jobs = (st, none)) :
    ∀ file, file ∈ jobs → ∀ p, p ∈ file.2.Periodics →
      ∃ sa sb, processPeriodic ext generatorConfig ciopConfigs sa p = (sb, none)
        ∧ sb.GrowsTo st := by
  intro file hfile p hp
  obtain ⟨sa, sb, hinner, hgrow⟩ := runLoop_ok_mem
    (fun st (file : GoString × JobConfig) =>
      runLoop (processPeriodic ext generatorConfig ciopConfigs) st file.2.Periodics)
    (fun st file => runLoop_growsTo _ (processPeriodic_growsTo ext generatorConfig ciopConfigs)
      file.2.Periodics st)
    jobs ⟨[], [], []⟩ st h file hfile
  obtain ⟨sc, sd, hstep, hgrow2⟩ := runLoop_ok_mem
    (processPeriodic ext generatorConfig ciopConfigs)
    (processPeriodic_growsTo ext generatorConfig ciopConfigs)
    file.2.Periodics sa sb hinner p hp
  exact ⟨sc, sd, hstep, hgrow2.trans hgrow⟩

theorem run_config_names (ext : Externals) (w : World) (jobs : GoMap JobConfig)
    (generatorConfig : GeneratorConfig) (ciopConfigs : GoMap DataWithInfo) (st : LoopState)
    (hjobs : loadJobs w.jobDirBase w.jobDirWalk [] = .ok jobs)
    (hgen : w.configFile = .ok generatorConfig)
    (hciop : w.ciopConfigs = some ciopConfigs)
    (hrec : reconcile ext generatorConfig ciopConfigs (ext.rangeOrder _ 254 [] jobs)
      = (st, none)) :
    (((run ext w).1.filter (fun op => op.store = .ciopConfigDir)).map (fun op => op.name)
        <+: (ext.rangeOrder _ 348 [] st.replacements).map Prod.fst)
      ∧ (∀ report, (run ext w).2 = .success report →
          ((run ext w).1.filter (fun op => op.store = .ciopConfigDir)).map (fun op => op.name)
            = (ext.rangeOrder _ 348 [] st.replacements).map Prod.fst) := by
  obtain ⟨done, hpre, hnames, hall⟩ :=
    runLoop_writeConfig_names ext w ciopConfigs (ext.rangeOrder _ 348 [] st.replacements) []
  simp only [List.filter_nil, List.map_nil, List.nil_append] at hnames
  have hrun : ((run ext w).1.filter (fun op => op.store = .ciopConfigDir)).map
        (fun op => op.name) = done
      ∧ (∀ report, (run ext w).2 = .success report →
          (runLoop (writeConfig ext w ciopConfigs) []
            (ext.rangeOrder _ 348 [] st.replacements)).2 = none) := by
    unfold run
    simp only [hjobs, hgen, hciop, hrec]
    split
    · next log stop hloop =>
      rw [hloop] at hnames
      exact ⟨hnames, fun report h => by cases stop <;> simp [Abort.toOutcome] at h⟩
    · next log hloop =>
      rw [hloop] at hnames
      simp only at hnames
      have hj := runLoop_writeJobConfig_names w st.replacedJobs
        (ext.rangeOrder _ 370 [] jobs) log
      split
      · next log2 stop hloop2 =>
        rw [hloop2] at hj
        simp only at hj ⊢
        rw [hj]
        exact ⟨hnames, fun _ _ => by rw [hloop]⟩
      · next log2 hloop2 =>
        rw [hloop2] at hj
        simp only at hj
        have hr := runLoop_rewriteRcFile_names ext w st.replacedJobs w.rcDirWalk log2
        split
        · next log3 stop hloop3 =>
          rw [hloop3] at hr
          simp only at hr ⊢
          rw [hr, hj]
          exact ⟨hnames, fun _ _ => by rw [hloop]⟩
        · next log3 hloop3 =>
          rw [hloop3] at hr
          simp only at hr ⊢
          rw [hr, hj]
          exact ⟨hnames, fun _ _ => by rw [hloop]⟩
  refine ⟨by rw [hrun.1]; exact hpre, fun report hsucc => ?_⟩
  rw [hrun.1]
  exact hall (hrun.2 report hsucc)

/-- C8, amended: the Store Rewriter writes (or synthesizes and creates) a
build-configuration file for every target file that has a ReplacementRecord,
whether or not anything was accumulated in it, and for no other file.  When
loading and reconciliation succeed, the build-configuration files `run` writes
are the first keys of `replacements` in the order the map is visited, and all
of its keys when `run` succeeds; and a record exists for the target file of
every candidate that runs `ci-operator`, so when `run` succeeds that file is
written even if the job had no generator-table entry. -/
theorem run_config_writes (ext : Externals) (w : World) (jobs : GoMap JobConfig)
    (generatorConfig : GeneratorConfig) (ciopConfigs : GoMap DataWithInfo) (st : LoopState)
    (hjobs : loadJobs w.jobDirBase w.jobDirWalk [] = .ok jobs)
    (hgen : w.configFile = .ok generatorConfig)
    (hciop : w.ciopConfigs = some ciopConfigs)
    (hrec : reconcile ext generatorConfig ciopConfigs (ext.rangeOrder _ 254 [] jobs)
      = (st, none)) :
    (((run ext w).1.filter (fun op => op.store = .ciopConfigDir)).map (fun op => op.name)
        <+: (ext.rangeOrder _ 348 [] st.replacements).map Prod.fst)
      ∧ (∀ report, (run ext w).2 = .success report →
          ((run ext w).1.filter (fun op => op.store = .ciopConfigDir)).map (fun op => op.name)
            = (ext.rangeOrder _ 348 [] st.replacements).map Prod.fst)
      ∧ (ext.RangesArePermutations → ∀ report, (run ext w).2 = .success report →
          ∀ file, file ∈ jobs → ∀ p, p ∈ file.2.Periodics →
          ∀ (container : Container) (others : List Container) (more : List GoString),
            (getJobInfo p.Name).2 = true → p.Spec = some (container :: others) →
            container.Command = "ci-operator".toList :: more →
            ext.Basename (metadataFromJobInfo (getJobInfo p.Name).1)
              ∈ ((run ext w).1.filter (fun op => op.store = .ciopConfigDir)).map
                  (fun op => op.name)) := by
  obtain ⟨h1, h2⟩ := run_config_names ext w jobs generatorConfig ciopConfigs st hjobs hgen
    hciop hrec
  refine ⟨h1, h2, ?_⟩
  intro hperm report hsucc file hfile p hp container others more hc hs hcmd
  rw [h2 report hsucc]
  obtain ⟨sa, sb, hstep, hgrow⟩ := reconcile_ok_mem ext generatorConfig ciopConfigs _ st hrec
    file ((hperm _ 254 [] jobs).mem_iff.2 hfile) p hp
  have hrecord := processPeriodic_record ext generatorConfig ciopConfigs sa p container others
    more hc hs hcmd
  rw [hstep] at hrecord
  have hst := hgrow.2.2 _ hrecord
  have hkeys := GoMap.mem_keys_of_lookup _ _ hst
  exact ((hperm _ 348 [] st.replacements).map Prod.fst).mem_iff.2 hkeys

theorem run_config_writes_witness :
    ((run exampleExternals
        (exampleWorld [examplePeriodic "release-openshift-ocp-installer-e2e-aws-4.8".toList]
          [] [] [])).1.filter (fun op => op.store = .ciopConfigDir)).map (fun op => op.name)
      = ["openshift-release-master__ocp-4.8.yaml".toList] :=
  ((run_config_writes exampleExternals
      (exampleWorld [examplePeriodic "release-openshift-ocp-installer-e2e-aws-4.8".toList]
        [] [] [])
      [("release-periodics.yaml".toList,
        ⟨[examplePeriodic "release-openshift-ocp-installer-e2e-aws-4.8".toList]⟩)]
      ⟨[]⟩ []
      ⟨[("openshift-release-master__ocp-4.8.yaml".toList, ⟨[], []⟩)], [],
        ["e2e-aws".toList]⟩
      rfl rfl rfl (by decide)).2.1 (.summary [] ["e2e-aws".toList]) (by decide)).trans
    (by decide)

/-! ## Target extraction -/

theorem stringsSplit_head_only (sep : Char) (arg piece : GoString)
    (h0 : (stringsSplit sep arg).getD 0 [] = piece) (h1 : (stringsSplit sep arg)[1]? = none) :
    arg = piece := by
  have hjoin := stringsJoin_split sep arg
  obtain ⟨p, ps, hp⟩ := List.exists_cons_of_ne_nil (stringsSplit_ne_nil sep arg)
  rw [hp] at h0 h1 hjoin
  cases ps with
  | nil =>
    simp only [List.getD_cons_zero] at h0
    simp only [stringsJoin] at hjoin
    rw [← hjoin, h0]
  | cons q qs => simp at h1

theorem extractTarget_none_iff (ext : Externals) (jobName : GoString) (envs : GoMap GoString)
    (args : List GoString) :
    ∀ target, extractTarget ext jobName envs args target = none ↔ "--target".toList ∈ args := by
  induction args with
  | nil => intro target; simp [extractTarget]
  | cons arg rest ih =>
    intro target
    simp only [extractTarget, List.mem_cons]
    by_cases h0 : (stringsSplit '=' arg).getD 0 [] = "--target".toList
    · rw [if_pos h0]
      cases h1 : (stringsSplit '=' arg)[1]? with
      | none =>
        simp only [true_iff]
        exact Or.inl (stringsSplit_head_only '=' arg _ h0 h1).symm
      | some t =>
        simp only [ih]
        constructor
        · exact Or.inr
        · rintro (h | h)
          · exfalso
            have hsplit : (stringsSplit '=' "--target".toList)[1]? = none := by decide
            rw [← h, hsplit] at h1
            cases h1
          · exact h
    · rw [if_neg h0, ih]
      constructor
      · exact Or.inr
      · rintro (h | h)
        · exfalso
          apply h0
          rw [← h]
          decide
        · exact h

/-- C13 fails on the code: the scan for the target indexes past the end of
the split of an argument exactly when one of the arguments is `--target` with
no `=`; a candidate carrying `UNRESOLVED_CONFIG` whose arguments are
`--target` and `e2e-aws` makes `run` panic, with neither a target nor the
error of a missing target, while `--target=e2e-aws` is read as the target
`e2e-aws`. -/
theorem extractTarget_bare_target_panics :
    (∀ (ext : Externals) (jobName : GoString) (envs : GoMap GoString) (args : List GoString)
        (target : GoString),
        extractTarget ext jobName envs args target = none ↔ "--target".toList ∈ args)
      ∧ extractTarget exampleExternals [] [] ["--target".toList, "e2e-aws".toList] [] = none
      ∧ extractTarget exampleExternals [] [] ["--target=e2e-aws".toList] []
          = some "e2e-aws".toList
      ∧ run exampleExternals
          (exampleWorld [exampleUnresolvedPeriodic ["--target".toList, "e2e-aws".toList]]
            [] [] [])
        = ([], .panic) := by
  refine ⟨fun ext jobName envs args target =>
    extractTarget_none_iff ext jobName envs args target, by decide, by decide, by decide⟩

/-! ## Test names stay distinct -/

theorem reconcileJob_tests (ext : Externals) (ciopConfigs : GoMap DataWithInfo)
    (st : LoopState) (periodic : Periodic) (info : jobInfo) (filename : GoString)
    (conf : testConfig) :
    (∀ f, (replacementRecord
          (reconcileJob ext ciopConfigs st periodic info filename conf).1.replacements f).tests
        = (replacementRecord st.replacements f).tests)
      ∨ ((∀ f, f ≠ filename → (replacementRecord
            (reconcileJob ext ciopConfigs st periodic info filename conf).1.replacements f).tests
          = (replacementRecord st.replacements f).tests)
        ∧ ∃ test : TestStepConfiguration, (replacementRecord
            (reconcileJob ext ciopConfigs st periodic info filename conf).1.replacements
              filename).tests
            = (replacementRecord st.replacements filename).tests ++ [test]
          ∧ ∀ step, step ∈ (replacementRecord st.replacements filename).tests
              ++ (ciopConfiguration ciopConfigs filename).Tests → step.As ≠ test.As) := by
  have htests : ∀ (imgs : GoMap ImageStreamTagReference) (f : GoString),
      (replacementRecord (GoMap.insert st.replacements filename
        { replacementRecord st.replacements filename with baseImages := imgs }) f).tests
        = (replacementRecord st.replacements f).tests := by
    intro imgs f
    rw [replacementRecord_insert]
    by_cases hf : filename = f
    · subst hf; simp
    · simp [hf]
  unfold reconcileJob
  simp only []
  split
  · exact Or.inl (htests _)
  · split
    · exact Or.inl (htests _)
    · next hfind =>
      right
      refine ⟨fun f hf => ?_,
        { As := info.As, MultiStageTestConfiguration := conf.Steps
          Cron := some (if periodic.Cron = [] then "@every ".toList ++ periodic.Interval
            else periodic.Cron) }, ?_, ?_⟩
      · show (replacementRecord (GoMap.insert _ filename _) f).tests = _
        rw [replacementRecord_insert, if_neg (fun h => hf h.symm)]
        exact htests _ f
      · show (replacementRecord (GoMap.insert _ filename _) filename).tests = _
        rw [replacementRecord_insert, if_pos rfl]
        simp only [htests]
      · intro step hstep
        have hnone := List.find?_eq_none.1 hfind step (by rw [htests]; exact hstep)
        simpa using hnone

theorem testNamesDistinct_of_tests_eq (ciopConfigs : GoMap DataWithInfo) (st st1 : LoopState)
    (heq : ∀ f, (replacementRecord st1.replacements f).tests
      = (replacementRecord st.replacements f).tests)
    (h : TestNamesDistinct ciopConfigs st) : TestNamesDistinct ciopConfigs st1 := by
  intro f
  rw [heq f]
  exact h f

theorem reconcileJob_testNamesDistinct (ext : Externals) (ciopConfigs : GoMap DataWithInfo)
    (st : LoopState) (periodic : Periodic) (info : jobInfo) (filename : GoString)
    (conf : testConfig) (h : TestNamesDistinct ciopConfigs st) :
    TestNamesDistinct ciopConfigs
      (reconcileJob ext ciopConfigs st periodic info filename conf).1 := by
  rcases reconcileJob_tests ext ciopConfigs st periodic info filename conf with heq | ⟨hne, test, hfile, hfresh⟩
  · exact testNamesDistinct_of_tests_eq ciopConfigs st _ heq h
  · intro f
    by_cases hf : f = filename
    · subst hf
      rw [hfile, ← List.append_assoc, List.map_append, List.nodup_append]
      refine ⟨h f, by simp, ?_⟩
      intro a ha hb
      simp only [List.map_cons, List.map_nil, List.mem_singleton] at hb
      simp only [List.mem_map] at ha
      obtain ⟨step, hstep, hAs⟩ := ha
      apply hfresh step _ (hAs.trans hb)
      rcases List.mem_append.1 hstep with h1 | h1
      · exact List.mem_append.2 (Or.inr h1)
      · exact List.mem_append.2 (Or.inl h1)
    · rw [hne f hf]
      exact h f

theorem ensureRecord_testNamesDistinct (ciopConfigs : GoMap DataWithInfo) (st : LoopState)
    (filename : GoString) (h : TestNamesDistinct ciopConfigs st) :
    TestNamesDistinct ciopConfigs (ensureRecord st filename) :=
  testNamesDistinct_of_tests_eq ciopConfigs st _
    (fun f => by rw [replacementRecord_ensureRecord]) h

theorem processPeriodic_testNamesDistinct (ext : Externals) (generatorConfig : GeneratorConfig)
    (ciopConfigs : GoMap DataWithInfo) (st : LoopState) (periodic : Periodic)
    (h : TestNamesDistinct ciopConfigs st) :
    TestNamesDistinct ciopConfigs
      (processPeriodic ext generatorConfig ciopConfigs st periodic).1 := by
  have hens := ensureRecord_testNamesDistinct ciopConfigs st
    (ext.Basename (metadataFromJobInfo (getJobInfo periodic.Name).1)) h
  have hrec : ∀ conf, TestNamesDistinct ciopConfigs (reconcileJob ext ciopConfigs
      (ensureRecord st (ext.Basename (metadataFromJobInfo (getJobInfo periodic.Name).1)))
      periodic (getJobInfo periodic.Name).1
      (ext.Basename (metadataFromJobInfo (getJobInfo periodic.Name).1)) conf).1 :=
    fun conf => reconcileJob_testNamesDistinct _ _ _ _ _ _ _ hens
  unfold processPeriodic
  simp only []
  split
  · exact h
  · split
    · exact h
    · exact h
    · split
      · exact h
      · split
        · exact h
        · split
          · split
            · exact hens
            · split
              · exact hens
              · split
                · exact hens
                · split
                  · exact hens
                  · exact hrec _
          · split
            · exact hens
            · exact hrec _

theorem runLoop_invariant {α σ : Type} (body : σ → α → σ × Option Abort) (I : σ → Prop)
    (hbody : ∀ (st : σ) (x : α), I st → I (body st x).1) :
    ∀ (xs : List α) (st : σ), I st → I (runLoop body st xs).1 := by
  intro xs
  induction xs with
  | nil => intro st h; exact h
  | cons x xs ih =>
    intro st h
    have hx := hbody st x h
    simp only [runLoop]
    split
    · next st1 stop hb => rw [hb] at hx; exact hx
    · next st1 hb => rw [hb] at hx; exact ih st1 hx

/-- C12: if the tests of the existing build configuration of every file have
pairwise distinct names, then the names of the existing tests of a file
together with the tests accumulated for it are pairwise distinct for every
target file at the start of the loop, after the loop body has processed any
periodic job from a state in which they are, and so in the state the
reconciliation loop reaches on any list of job files. -/
theorem reconcile_test_names_distinct (ext : Externals) (generatorConfig : GeneratorConfig)
    (ciopConfigs : GoMap DataWithInfo)
    (hexisting : ∀ f, ((ciopConfiguration ciopConfigs f).Tests.map (fun t => t.As)).Nodup) :
    TestNamesDistinct ciopConfigs ⟨[], [], []⟩
      ∧ (∀ (st : LoopState) (periodic : Periodic), TestNamesDistinct ciopConfigs st →
          TestNamesDistinct ciopConfigs
            (processPeriodic ext generatorConfig ciopConfigs st periodic).1)
      ∧ (∀ jobs : GoMap JobConfig,
          TestNamesDistinct ciopConfigs (reconcile ext generatorConfig ciopConfigs jobs).1) := by
  have hinit : TestNamesDistinct ciopConfigs ⟨[], [], []⟩ := by
    intro f
    have : (replacementRecord ([] : GoMap testsAndBaseImages) f).tests = [] := rfl
    rw [this, List.append_nil]
    exact hexisting f
  refine ⟨hinit, fun st periodic h =>
    processPeriodic_testNamesDistinct ext generatorConfig ciopConfigs st periodic h, ?_⟩
  intro jobs
  exact runLoop_invariant _ (TestNamesDistinct ciopConfigs)
    (fun st file h => runLoop_invariant _ (TestNamesDistinct ciopConfigs)
      (fun st periodic h =>
        processPeriodic_testNamesDistinct ext generatorConfig ciopConfigs st periodic h)
      file.2.Periodics st h)
    jobs _ hinit

theorem reconcile_test_names_distinct_witness :
    (((ciopConfiguration
          [("openshift-release-master__ocp-4.8.yaml".toList,
            ⟨{ BaseImages := none, Releases := [], Resources := []
               Tests := [⟨"unit".toList, none, none⟩]
               Metadata := ⟨[], [], [], []⟩ }, ⟨[], [], [], []⟩⟩)]
          "openshift-release-master__ocp-4.8.yaml".toList).Tests
        ++ (replacementRecord
          (reconcile exampleExternals ⟨[("e2e-aws".toList, ⟨some ⟨[]⟩, []⟩)]⟩
            [("openshift-release-master__ocp-4.8.yaml".toList,
              ⟨{ BaseImages := none, Releases := [], Resources := []
                 Tests := [⟨"unit".toList, none, none⟩]
                 Metadata := ⟨[], [], [], []⟩ }, ⟨[], [], [], []⟩⟩)]
            [("release-periodics.yaml".toList,
              ⟨[examplePeriodic "release-openshift-ocp-installer-e2e-aws-4.8".toList]⟩)]).1.replacements
          "openshift-release-master__ocp-4.8.yaml".toList).tests).map (fun t => t.As)).Nodup :=
  (reconcile_test_names_distinct exampleExternals ⟨[("e2e-aws".toList, ⟨some ⟨[]⟩, []⟩)]⟩
    [("openshift-release-master__ocp-4.8.yaml".toList,
      ⟨{ BaseImages := none, Releases := [], Resources := []
         Tests := [⟨"unit".toList, none, none⟩]
         Metadata := ⟨[], [], [], []⟩ }, ⟨[], [], [], []⟩⟩)]
    (fun f => by
      unfold ciopConfiguration
      simp only [GoMap.lookup]
      split_ifs <;> simp [ReleaseBuildConfiguration.zero])).2.2
    [("release-periodics.yaml".toList,
      ⟨[examplePeriodic "release-openshift-ocp-installer-e2e-aws-4.8".toList]⟩)]
    "openshift-release-master__ocp-4.8.yaml".toList

/-! ## Variable substitution -/

theorem envToken_eq_cons (name : GoString) :
    envToken name = '$' :: ('(' :: (name ++ [')'])) := rfl

theorem substituteEnv_cons (e : GoString × GoString) (rest : GoMap GoString) (s : GoString) :
    substituteEnv (e :: rest) s
      = substituteEnv rest (stringsReplaceAll s (envToken e.1) e.2) := rfl

theorem substituteEnv_append (done : GoMap GoString) (e : GoString × GoString)
    (s : GoString) :
    substituteEnv (done ++ [e]) s
      = stringsReplaceAll (substituteEnv done s) (envToken e.1) e.2 := by
  simp [substituteEnv, List.foldl_append, envToken]

theorem substituteEnv_unchanged (envs : GoMap GoString) :
    ∀ s : GoString, (∀ e, e ∈ envs → ¬ envToken e.1 <:+: s) → substituteEnv envs s = s := by
  induction envs with
  | nil => intro s _; rfl
  | cons e rest ih =>
    intro s h
    rw [substituteEnv_cons,
      stringsReplaceAll_of_not_infix s (envToken e.1) e.2 (by simp [envToken_eq_cons])
        (h e (by simp))]
    exact ih s (fun x hx => h x (List.mem_cons_of_mem _ hx))

theorem replaceAllAux_copy (old new : GoString) (d : Char) (tail : GoString)
    (hold : old = d :: tail) :
    ∀ (u rest : GoString), d ∉ u →
      replaceAllAux old new 0 (u ++ rest) = u ++ replaceAllAux old new 0 rest := by
  intro u
  induction u with
  | nil => intro rest _; rfl
  | cons x u ih =>
    intro rest hx
    have hne : x ≠ d := fun h => hx (by simp [h])
    have hu : d ∉ u := fun h => hx (List.mem_cons_of_mem _ h)
    have hnp : ¬ old <+: x :: (u ++ rest) := by
      rw [hold, List.cons_prefix_cons]
      exact fun h => hne h.1.symm
    rw [List.cons_append, replaceAllAux_cons old new x (u ++ rest) (by rw [hold]; simp),
      if_neg hnp, ih rest hu]
    rfl

theorem replaceAllAux_preserves_infix (old new t : GoString) (d : Char)
    (oldTail tTail : GoString) (hold : old = d :: oldTail) (ht : t = d :: tTail)
    (hd1 : d ∉ oldTail) (hd2 : d ∉ tTail) (h1 : ¬ old <+: t) (h2 : ¬ t <+: old) (n : Nat) :
    ∀ s : GoString, s.length ≤ n → ∀ a b : GoString, s = a ++ t ++ b →
      t <:+: replaceAllAux old new 0 s := by
  have holdne : old ≠ [] := by rw [hold]; simp
  induction n with
  | zero =>
    intro s hs a b hab
    have : s = [] := List.length_eq_zero.1 (by omega)
    rw [this, ht] at hab
    simp at hab
  | succ n ih =>
    intro s hs a b hab
    cases s with
    | nil => rw [ht] at hab; simp at hab
    | cons c cs =>
      rw [replaceAllAux_cons old new c cs holdne]
      by_cases hpre : old <+: c :: cs
      · rw [if_pos hpre]
        obtain ⟨r, hr⟩ := hpre
        have hdrop : (c :: cs).drop old.length = r := by rw [← hr]; simp
        have hrlen : r.length ≤ n := by
          have e1 := congrArg List.length hr
          have e2 := List.length_pos.2 holdne
          simp only [List.length_append, List.length_cons] at e1 hs
          omega
        rw [hdrop]
        have hin : t <:+: r := by
          cases a with
          | nil =>
            exfalso
            have p1 : t <+: c :: cs := ⟨b, by rw [hab]; simp⟩
            have p2 : old <+: c :: cs := ⟨r, hr⟩
            rcases List.prefix_or_prefix_of_prefix p1 p2 with h | h
            · exact h2 h
            · exact h1 h
          | cons a0 a1 =>
            have heq : a1 ++ (t ++ b) = oldTail ++ r := by
              have e1 : a0 :: (a1 ++ (t ++ b)) = d :: (oldTail ++ r) := by
                have := hab.symm.trans hr.symm
                rw [hold] at this
                simpa using this
              exact (List.cons.inj e1).2
            rcases List.append_eq_append_iff.1 heq with ⟨x, hx1, hx2⟩ | ⟨x, hx1, hx2⟩
            · cases x with
              | nil =>
                simp only [List.nil_append] at hx2
                exact ⟨[], b, by simpa using hx2⟩
              | cons x0 x1 =>
                exfalso
                rw [ht] at hx2
                simp only [List.cons_append, List.cons.injEq] at hx2
                apply hd1
                rw [hx1, ← hx2.1]
                simp
            · exact ⟨x, b, by rw [hx2]; simp⟩
        obtain ⟨a2, b2, hab2⟩ := hin
        exact (ih r hrlen a2 b2 hab2.symm).trans
          (List.IsSuffix.isInfix (List.suffix_append _ _))
      · rw [if_neg hpre]
        cases a with
        | nil =>
          have e1 : c :: cs = d :: (tTail ++ b) := by rw [hab, ht]; simp
          obtain ⟨hc, hcs⟩ := List.cons.inj e1
          rw [hcs, replaceAllAux_copy old new d oldTail hold tTail b hd2, hc, ht]
          exact List.IsPrefix.isInfix ⟨replaceAllAux old new 0 b, by simp⟩
        | cons a0 a1 =>
          have e1 : cs = a1 ++ t ++ b := by
            have : c :: cs = a0 :: (a1 ++ t ++ b) := by rw [hab]; simp
            exact (List.cons.inj this).2
          have hlen : cs.length ≤ n := by simp only [List.length_cons] at hs; omega
          exact (ih cs hlen a1 b e1).trans (List.IsSuffix.isInfix (List.suffix_cons _ _))

theorem concat_prefix_concat {α : Type} (x : α) :
    ∀ (a b : List α), x ∉ b → a ++ [x] <+: b ++ [x] → a = b := by
  intro a
  induction a with
  | nil =>
    intro b hb h
    cases b with
    | nil => rfl
    | cons y b =>
      exfalso
      simp only [List.nil_append, List.cons_append, List.cons_prefix_cons] at h
      exact hb (by simp [h.1])
  | cons z a ih =>
    intro b hb h
    cases b with
    | nil =>
      exfalso
      simp only [List.cons_append, List.nil_append, List.cons_prefix_cons] at h
      have := h.2.length_le
      simp at this
    | cons y b =>
      simp only [List.cons_append, List.cons_prefix_cons] at h
      rw [h.1, ih b (fun hx => hb (List.mem_cons_of_mem _ hx)) h.2]

theorem envToken_prefix_inj (k c : GoString) (hc : ')' ∉ c) (h : envToken k <+: envToken c) :
    k = c := by
  simp only [envToken_eq_cons, List.cons_prefix_cons, true_and] at h
  exact concat_prefix_concat ')' k c hc h

theorem stringsReplaceAll_preserves_token (s value key name : GoString)
    (hne : key ≠ name) (hk1 : '$' ∉ key) (hk2 : ')' ∉ key)
    (hn1 : '$' ∉ name) (hn2 : ')' ∉ name) (h : envToken name <:+: s) :
    envToken name <:+: stringsReplaceAll s (envToken key) value := by
  obtain ⟨a, b, hab⟩ := h
  have hd : ∀ n : GoString, '$' ∉ n → '$' ∉ '(' :: (n ++ [')']) := by
    intro n hn
    simp only [List.mem_cons, List.mem_append, List.mem_singleton, not_or]
    exact ⟨by decide, hn, by decide⟩
  have := replaceAllAux_preserves_infix (envToken key) value (envToken name) '$'
    ('(' :: (key ++ [')'])) ('(' :: (name ++ [')'])) rfl rfl (hd key hk1) (hd name hn1)
    (fun hp => hne (envToken_prefix_inj key name hn2 hp))
    (fun hp => hne (envToken_prefix_inj name key hk2 hp).symm)
    s.length s (le_refl _) a b hab.symm
  exact this

theorem substituteEnv_preserves_token (envs : GoMap GoString) (name : GoString)
    (hn1 : '$' ∉ name) (hn2 : ')' ∉ name) :
    ∀ s : GoString, (∀ e, e ∈ envs → e.1 ≠ name ∧ '$' ∉ e.1 ∧ ')' ∉ e.1) →
      envToken name <:+: s → envToken name <:+: substituteEnv envs s := by
  induction envs with
  | nil => intro s _ h; exact h
  | cons e rest ih =>
    intro s henv h
    rw [substituteEnv_cons]
    obtain ⟨h1, h2, h3⟩ := henv e (by simp)
    exact ih _ (fun x hx => henv x (List.mem_cons_of_mem _ hx))
      (stringsReplaceAll_preserves_token s e.2 e.1 name h1 h2 h3 hn1 hn2 h)

/-- C11, as stated, fails: with `A` set to `$(B)` and `B` set to `x`, the
string `$(A)` becomes `$(B)`, a token of a key, when `B` is visited before `A`
(and `x` when `A` is visited first), and this is what the target of
`--target=$(A)` becomes; and a token whose name is not a key can disappear
when a key contains `)` and `$`: with the single key `A)$(C`, the string
`$(A)$(C)` becomes the value of that key. -/
theorem substituteEnv_counterexample :
    substituteEnv [("B".toList, "x".toList), ("A".toList, "$(B)".toList)] "$(A)".toList
        = "$(B)".toList
      ∧ substituteEnv [("A".toList, "$(B)".toList), ("B".toList, "x".toList)] "$(A)".toList
        = "x".toList
      ∧ extractTarget exampleExternals []
          [("B".toList, "x".toList), ("A".toList, "$(B)".toList)]
          ["--target=$(A)".toList] []
        = some "$(B)".toList
      ∧ substituteEnv [("A)$(C".toList, "v".toList)] "$(A)$(C)".toList = "v".toList := by
  decide

/-- C11, amended: substitution applies the entries of the mapping one after
another, in whatever order they are visited, each to the text left by the
entries before it.  A string in which the token of no key occurs, and so a
string containing no `$(...)` token at all, is returned unchanged.  When
neither the keys nor the name contain `$` or `)`, a token `$(NAME)` whose NAME
is not a key and that occurs in the string still occurs in the result.  Every
step replaces all the occurrences of its token found from left to right
without overlap: the text before the step is a sequence of pieces separated by
the token, none of the pieces containing the token, and the text after the
step is the same pieces separated by the value. -/
theorem substituteEnv_properties (envs : GoMap GoString) (s : GoString) :
    ((∀ e, e ∈ envs → ¬ envToken e.1 <:+: s) → substituteEnv envs s = s)
      ∧ ((∀ name, ¬ envToken name <:+: s) → substituteEnv envs s = s)
      ∧ (∀ name, '$' ∉ name → ')' ∉ name →
          (∀ e, e ∈ envs → e.1 ≠ name ∧ '$' ∉ e.1 ∧ ')' ∉ e.1) →
          envToken name <:+: s → envToken name <:+: substituteEnv envs s)
      ∧ (∀ done e rest, envs = done ++ e :: rest →
          ∃ pieces : List GoString, pieces ≠ []
            ∧ substituteEnv done s = stringsJoin (envToken e.1) pieces
            ∧ substituteEnv (done ++ [e]) s = stringsJoin e.2 pieces
            ∧ ∀ p, p ∈ pieces → ¬ envToken e.1 <:+: p) := by
  refine ⟨substituteEnv_unchanged envs s,
    fun h => substituteEnv_unchanged envs s (fun e _ => h e.1),
    fun name hn1 hn2 henv h => substituteEnv_preserves_token envs name hn1 hn2 s henv h, ?_⟩
  intro done e rest _
  obtain ⟨pieces, hp, hjoin, hrep, hfree⟩ :=
    stringsReplaceAll_pieces (substituteEnv done s) (envToken e.1) e.2
      (by simp [envToken_eq_cons])
  exact ⟨pieces, hp, hjoin, by rw [substituteEnv_append, hrep], hfree⟩

theorem substituteEnv_properties_witness :
    envToken "C".toList <:+: substituteEnv [("A".toList, "x".toList)] "$(A) $(C)".toList
      ∧ substituteEnv [("A".toList, "x".toList)] "$(A) $(C)".toList = "x $(C)".toList :=
  ⟨(substituteEnv_properties [("A".toList, "x".toList)] "$(A) $(C)".toList).2.2.1 "C".toList
      (by decide) (by decide) (by decide) ⟨"$(A) ".toList, [], by decide⟩,
    by decide⟩

end ReleaseJobMigrator
